import Mathlib

/-!
Verification development for the concurrent text-search core
(sharded inverted index, tokenizer, document store, index builder).

The C++ code is shallowly embedded: `std::unordered_map` containers become
association lists with unique keys, `std::string` byte strings become
`List Nat`, C++ `int` becomes `Int`, `std::size_t` becomes `Nat`.  Each term
lives in exactly one shard (`hash(term) % S` is a function of the term), so
the union of the shard maps is modelled as a single term map; per-shard
grouping in the C++ only changes the order in which distinct terms are
visited, which is immaterial for the map contents.  All claims below are
about quiescent (non-overlapping) executions, so operations are modelled as
sequential state transformers.
-/

namespace Core

/-- A term is a byte string, as in the C++ `std::string` keys of the index. -/
abbrev Term := List Nat

/-- Posting from `inverted_index.h`: `(doc_id, freq)`, both C++ `int`. -/
structure Posting where
  doc_id : Int
  freq : Int
deriving DecidableEq, Repr

/-- Lookup in an association list, mirroring `unordered_map::find`. -/
def lookupA {κ ν : Type} [DecidableEq κ] : List (κ × ν) → κ → Option ν
  | [], _ => none
  | (k, v) :: rest, key => if k = key then some v else lookupA rest key

/-- Insert-or-assign, mirroring `map[key] = val`. -/
def insertA {κ ν : Type} [DecidableEq κ] : List (κ × ν) → κ → ν → List (κ × ν)
  | [], key, val => [(key, val)]
  | (k, v) :: rest, key, val =>
    if k = key then (k, val) :: rest else (k, v) :: insertA rest key val

/-- Erase a key, mirroring `map.erase(key)`. -/
def eraseA {κ ν : Type} [DecidableEq κ] : List (κ × ν) → κ → List (κ × ν)
  | [], _ => []
  | (k, v) :: rest, key => if k = key then rest else (k, v) :: eraseA rest key

/-- The union of the shard maps `term → vector<Posting>`. -/
abbrev InvMap := List (Term × List Posting)

/-- The forward map `doc_id → vector<(term, freq)>`. -/
abbrev FwdMap := List (Int × List (Term × Int))

/-- State of a `ConcurrentInvertedIndex` (shard maps unioned, see header note). -/
structure Index where
  inverted : InvMap
  forward : FwdMap
deriving DecidableEq, Repr

/-- A freshly constructed index: all maps empty. -/
def Index.empty : Index := ⟨[], []⟩

/-- Model of `shards_[sid].map[term].push_back(p)` from `upsert_document` step 4. -/
def appendPosting (inv : InvMap) (t : Term) (p : Posting) : InvMap :=
  insertA inv t ((lookupA inv t).getD [] ++ [p])

/-- Per-term body of `remove_document` step 2: erase every posting whose
`doc_id` matches, and drop the term key when its list becomes empty. -/
def removeDocTerm (inv : InvMap) (t : Term) (doc : Int) : InvMap :=
  match lookupA inv t with
  | none => inv
  | some ps =>
    if ps.filter (fun p => p.doc_id ≠ doc) = [] then eraseA inv t
    else insertA inv t (ps.filter (fun p => p.doc_id ≠ doc))

/-- Model of `ConcurrentInvertedIndex::remove_document`: copy the forward entry, delete
the matching postings term by term, then erase the forward entry. -/
def remove_document (idx : Index) (doc : Int) : Index :=
  { inverted := ((lookupA idx.forward doc).getD []).foldl
      (fun inv kv => removeDocTerm inv kv.1 doc) idx.inverted,
    forward := eraseA idx.forward doc }

/-- Model of `ConcurrentInvertedIndex::upsert_document`: remove the old postings, keep
only the strictly positive frequencies, install the forward entry
(unconditionally, even when empty), then append one posting per kept term. -/
def upsert_document (idx : Index) (doc : Int) (tf : List (Term × Int)) : Index :=
  { forward := insertA (remove_document idx doc).forward doc
      (tf.filter (fun kv => 0 < kv.2)),
    inverted := (tf.filter (fun kv => 0 < kv.2)).foldl
      (fun inv kv => appendPosting inv kv.1 ⟨doc, kv.2⟩) (remove_document idx doc).inverted }

/-- Model of `IndexStats` from `inverted_index.h`. -/
structure IndexStats where
  documents : Nat
  terms : Nat
  postings : Nat
deriving DecidableEq, Repr

/-- Model of `ConcurrentInvertedIndex::stats`: forward size, term count, total postings. -/
def Index.stats (idx : Index) : IndexStats :=
  { documents := idx.forward.length,
    terms := idx.inverted.length,
    postings := (idx.inverted.map (fun kv => kv.2.length)).sum }

/-- Posting list stored under a term (empty when the key is absent). -/
def postingsFor (inv : InvMap) (t : Term) : List Posting :=
  (lookupA inv t).getD []

/-- Forward entry stored for a document (empty when the key is absent). -/
def fwdEntry (fwd : FwdMap) (d : Int) : List (Term × Int) :=
  (lookupA fwd d).getD []

/-! ### Association-list lemmas -/

theorem lookupA_eq_none {κ ν : Type} [DecidableEq κ] (l : List (κ × ν)) (k : κ) :
    lookupA l k = none ↔ k ∉ l.map Prod.fst := by
  induction l with
  | nil => simp [lookupA]
  | cons kv rest ih =>
    obtain ⟨a, b⟩ := kv
    rw [List.map_cons, List.mem_cons]
    by_cases hak : a = k
    · subst hak
      simp [lookupA]
    · rw [show lookupA ((a, b) :: rest) k = lookupA rest k from by
        simp [lookupA, hak], ih]
      constructor
      · intro h hm
        rcases hm with he | hm2
        · exact hak he.symm
        · exact h hm2
      · intro h hm
        exact h (Or.inr hm)

theorem mem_of_lookupA {κ ν : Type} [DecidableEq κ] {l : List (κ × ν)} {k : κ} {v : ν}
    (h : lookupA l k = some v) : (k, v) ∈ l := by
  induction l with
  | nil => simp [lookupA] at h
  | cons kv rest ih =>
    obtain ⟨a, b⟩ := kv
    by_cases hak : a = k
    · subst hak
      simp [lookupA] at h
      subst h
      exact List.mem_cons_self _ _
    · simp [lookupA, hak] at h
      exact List.mem_cons_of_mem _ (ih h)

theorem lookupA_of_mem_nodup {κ ν : Type} [DecidableEq κ] {l : List (κ × ν)} {k : κ} {v : ν}
    (hnd : (l.map Prod.fst).Nodup) (h : (k, v) ∈ l) : lookupA l k = some v := by
  induction l with
  | nil => simp at h
  | cons kv rest ih =>
    obtain ⟨a, b⟩ := kv
    rw [List.map_cons] at hnd
    have hnd1 : a ∉ rest.map Prod.fst := (List.nodup_cons.1 hnd).1
    have hnd2 : (rest.map Prod.fst).Nodup := (List.nodup_cons.1 hnd).2
    rcases List.mem_cons.1 h with he | hm
    · have h1 : a = k := (congrArg Prod.fst he).symm
      have h2 : b = v := (congrArg Prod.snd he).symm
      subst h1; subst h2
      simp [lookupA]
    · have hak : a ≠ k := by
        intro hc
        exact hnd1 (hc ▸ List.mem_map_of_mem Prod.fst hm)
      simp [lookupA, hak]
      exact ih hnd2 hm

theorem lookupA_insertA {κ ν : Type} [DecidableEq κ] (l : List (κ × ν)) (k : κ) (v : ν)
    (k' : κ) : lookupA (insertA l k v) k' = if k = k' then some v else lookupA l k' := by
  induction l with
  | nil => simp [insertA, lookupA]
  | cons kv rest ih =>
    obtain ⟨a, b⟩ := kv
    by_cases hak : a = k
    · subst hak
      rw [show insertA ((a, b) :: rest) a v = (a, v) :: rest from by simp [insertA]]
      by_cases hk' : a = k'
      · subst hk'
        simp [lookupA]
      · simp [lookupA, hk']
    · rw [show insertA ((a, b) :: rest) k v = (a, b) :: insertA rest k v from by
        simp [insertA, hak]]
      by_cases hk' : a = k'
      · subst hk'
        simp [lookupA, if_neg (fun hc : a = k => hak hc), if_neg (fun hc : k = a => hak hc.symm)]
      · simp [lookupA, hk', ih]

theorem lookupA_eraseA_ne {κ ν : Type} [DecidableEq κ] (l : List (κ × ν)) {k k' : κ}
    (h : k' ≠ k) : lookupA (eraseA l k') k = lookupA l k := by
  induction l with
  | nil => simp [eraseA]
  | cons kv rest ih =>
    obtain ⟨a, b⟩ := kv
    by_cases hak : a = k'
    · subst hak
      rw [show eraseA ((a, b) :: rest) a = rest from by simp [eraseA]]
      simp [lookupA, if_neg (fun hc : a = k => h (hc ▸ rfl))]
    · rw [show eraseA ((a, b) :: rest) k' = (a, b) :: eraseA rest k' from by simp [eraseA, hak]]
      by_cases hk : a = k
      · simp [lookupA, hk]
      · simp [lookupA, hk, ih]

theorem eraseA_sublist {κ ν : Type} [DecidableEq κ] (l : List (κ × ν)) (k : κ) :
    List.Sublist (eraseA l k) l := by
  induction l with
  | nil => simp [eraseA]
  | cons kv rest ih =>
    obtain ⟨a, b⟩ := kv
    by_cases hak : a = k
    · rw [show eraseA ((a, b) :: rest) k = rest from by simp [eraseA, hak]]
      exact List.sublist_cons_self _ _
    · rw [show eraseA ((a, b) :: rest) k = (a, b) :: eraseA rest k from by simp [eraseA, hak]]
      exact ih.cons₂ (a, b)

theorem lookupA_eraseA_self {κ ν : Type} [DecidableEq κ] {l : List (κ × ν)} (k : κ)
    (hnd : (l.map Prod.fst).Nodup) : lookupA (eraseA l k) k = none := by
  induction l with
  | nil => simp [eraseA, lookupA]
  | cons kv rest ih =>
    obtain ⟨a, b⟩ := kv
    rw [List.map_cons] at hnd
    have hnd1 : a ∉ rest.map Prod.fst := (List.nodup_cons.1 hnd).1
    have hnd2 : (rest.map Prod.fst).Nodup := (List.nodup_cons.1 hnd).2
    by_cases hak : a = k
    · subst hak
      rw [show eraseA ((a, b) :: rest) a = rest from by simp [eraseA]]
      exact (lookupA_eq_none rest a).2 hnd1
    · rw [show eraseA ((a, b) :: rest) k = (a, b) :: eraseA rest k from by simp [eraseA, hak]]
      simp [lookupA, hak]
      exact ih hnd2

theorem eraseA_of_not_mem {κ ν : Type} [DecidableEq κ] {l : List (κ × ν)} {k : κ}
    (h : k ∉ l.map Prod.fst) : eraseA l k = l := by
  induction l with
  | nil => rfl
  | cons kv rest ih =>
    obtain ⟨a, b⟩ := kv
    rw [List.map_cons, List.mem_cons] at h
    have hak : a ≠ k := fun hc => h (Or.inl hc.symm)
    have hrest : k ∉ rest.map Prod.fst := fun hc => h (Or.inr hc)
    rw [show eraseA ((a, b) :: rest) k = (a, b) :: eraseA rest k from by simp [eraseA, hak]]
    rw [ih hrest]

theorem keys_insertA {κ ν : Type} [DecidableEq κ] (l : List (κ × ν)) (k : κ) (v : ν) :
    (insertA l k v).map Prod.fst =
      if k ∈ l.map Prod.fst then l.map Prod.fst else l.map Prod.fst ++ [k] := by
  induction l with
  | nil => simp [insertA]
  | cons kv rest ih =>
    obtain ⟨a, b⟩ := kv
    by_cases hak : a = k
    · subst hak
      rw [show insertA ((a, b) :: rest) a v = (a, v) :: rest from by simp [insertA]]
      simp
    · rw [show insertA ((a, b) :: rest) k v = (a, b) :: insertA rest k v from by
        simp [insertA, hak]]
      rw [List.map_cons, List.map_cons, ih]
      by_cases hm : k ∈ rest.map Prod.fst
      · simp [hm, List.mem_cons, Ne.symm hak]
      · have : ¬(k = a ∨ k ∈ rest.map Prod.fst) := by
          rintro (hc | hc)
          · exact hak hc.symm
          · exact hm hc
        rw [if_neg hm]
        have hnotin : k ∉ a :: rest.map Prod.fst := by
          rw [List.mem_cons]; exact this
        rw [if_neg hnotin, List.cons_append]

theorem nodup_keys_insertA {κ ν : Type} [DecidableEq κ] {l : List (κ × ν)} (k : κ) (v : ν)
    (hnd : (l.map Prod.fst).Nodup) : ((insertA l k v).map Prod.fst).Nodup := by
  rw [keys_insertA]
  by_cases hm : k ∈ l.map Prod.fst
  · simpa [hm] using hnd
  · rw [if_neg hm]
    rw [List.nodup_append]
    refine ⟨hnd, List.nodup_singleton k, fun x hx hxk => ?_⟩
    rw [List.mem_singleton.1 hxk] at hx
    exact hm hx

theorem mem_insertA {κ ν : Type} [DecidableEq κ] {l : List (κ × ν)} {k : κ} {v : ν}
    {e : κ × ν} (h : e ∈ insertA l k v) : e ∈ l ∨ e = (k, v) := by
  induction l with
  | nil => simpa [insertA] using h
  | cons kv rest ih =>
    obtain ⟨a, b⟩ := kv
    by_cases hak : a = k
    · subst hak
      rw [show insertA ((a, b) :: rest) a v = (a, v) :: rest from by simp [insertA]] at h
      rcases List.mem_cons.1 h with he | hm
      · right; rw [he]
      · left; exact List.mem_cons_of_mem _ hm
    · rw [show insertA ((a, b) :: rest) k v = (a, b) :: insertA rest k v from by
        simp [insertA, hak]] at h
      rcases List.mem_cons.1 h with he | hm
      · left; rw [he]; exact List.mem_cons_self _ _
      · rcases ih hm with h1 | h2
        · left; exact List.mem_cons_of_mem _ h1
        · right; exact h2

/-! ### Step lemmas for the per-term mutations -/

theorem removeDocTerm_none {inv : InvMap} {t : Term} {doc : Int}
    (h : lookupA inv t = none) : removeDocTerm inv t doc = inv := by
  unfold removeDocTerm
  rw [h]

theorem removeDocTerm_some {inv : InvMap} {t : Term} {doc : Int} {ps : List Posting}
    (h : lookupA inv t = some ps) :
    removeDocTerm inv t doc =
      if ps.filter (fun p => p.doc_id ≠ doc) = [] then eraseA inv t
      else insertA inv t (ps.filter (fun p => p.doc_id ≠ doc)) := by
  unfold removeDocTerm
  rw [h]

theorem postingsFor_appendPosting (inv : InvMap) (t : Term) (p : Posting) (u : Term) :
    postingsFor (appendPosting inv t p) u =
      if t = u then postingsFor inv u ++ [p] else postingsFor inv u := by
  unfold appendPosting postingsFor
  rw [lookupA_insertA]
  by_cases htu : t = u
  · subst htu
    simp
  · simp [htu]

theorem keys_appendPosting_sub {inv : InvMap} {t : Term} {p : Posting} :
    ∀ u ∈ (appendPosting inv t p).map Prod.fst, u ∈ inv.map Prod.fst ∨ u = t := by
  intro u hu
  unfold appendPosting at hu
  rw [keys_insertA] at hu
  by_cases hm : t ∈ inv.map Prod.fst
  · rw [if_pos hm] at hu
    exact Or.inl hu
  · rw [if_neg hm] at hu
    rcases List.mem_append.1 hu with h1 | h2
    · exact Or.inl h1
    · exact Or.inr (List.mem_singleton.1 h2)

theorem nodup_keys_appendPosting {inv : InvMap} (t : Term) (p : Posting)
    (hnd : (inv.map Prod.fst).Nodup) : ((appendPosting inv t p).map Prod.fst).Nodup :=
  nodup_keys_insertA t _ hnd

theorem keys_removeDocTerm_sublist (inv : InvMap) (t : Term) (doc : Int) :
    List.Sublist ((removeDocTerm inv t doc).map Prod.fst) (inv.map Prod.fst) := by
  cases h : lookupA inv t with
  | none =>
    rw [removeDocTerm_none h]
  | some ps =>
    rw [removeDocTerm_some h]
    by_cases hemp : ps.filter (fun p => p.doc_id ≠ doc) = []
    · rw [if_pos hemp]
      exact (eraseA_sublist inv t).map Prod.fst
    · rw [if_neg hemp, keys_insertA,
        if_pos (List.mem_map_of_mem Prod.fst (mem_of_lookupA h))]

theorem nodup_keys_removeDocTerm {inv : InvMap} (t : Term) (doc : Int)
    (hnd : (inv.map Prod.fst).Nodup) : ((removeDocTerm inv t doc).map Prod.fst).Nodup :=
  List.Nodup.sublist (keys_removeDocTerm_sublist inv t doc) hnd

theorem postingsFor_removeDocTerm {inv : InvMap} (hnd : (inv.map Prod.fst).Nodup)
    (t : Term) (doc : Int) (u : Term) :
    postingsFor (removeDocTerm inv t doc) u =
      if t = u then (postingsFor inv u).filter (fun p => p.doc_id ≠ doc)
      else postingsFor inv u := by
  cases h : lookupA inv t with
  | none =>
    rw [removeDocTerm_none h]
    by_cases htu : t = u
    · subst htu
      rw [if_pos rfl]
      unfold postingsFor
      rw [h]
      rfl
    · rw [if_neg htu]
  | some ps =>
    rw [removeDocTerm_some h]
    by_cases hemp : ps.filter (fun p => p.doc_id ≠ doc) = []
    · rw [if_pos hemp]
      by_cases htu : t = u
      · subst htu
        rw [if_pos rfl]
        unfold postingsFor
        rw [lookupA_eraseA_self t hnd, h]
        simpa using hemp.symm
      · rw [if_neg htu]
        unfold postingsFor
        rw [lookupA_eraseA_ne _ htu]
    · rw [if_neg hemp]
      unfold postingsFor
      rw [lookupA_insertA]
      by_cases htu : t = u
      · subst htu
        rw [if_pos rfl, if_pos rfl, h]
        rfl
      · rw [if_neg htu, if_neg htu]

/-- Key invariant: no key maps to an empty posting list (spec invariant 2). -/
def NoEmptyInv (inv : InvMap) : Prop := ∀ t : Term, lookupA inv t ≠ some []

theorem noEmpty_appendPosting {inv : InvMap} (hne : NoEmptyInv inv) (t : Term)
    (p : Posting) : NoEmptyInv (appendPosting inv t p) := by
  intro u
  unfold appendPosting
  rw [lookupA_insertA]
  by_cases htu : t = u
  · rw [if_pos htu]
    simp
  · rw [if_neg htu]
    exact hne u

theorem noEmpty_removeDocTerm {inv : InvMap} (hnd : (inv.map Prod.fst).Nodup)
    (hne : NoEmptyInv inv) (t : Term) (doc : Int) :
    NoEmptyInv (removeDocTerm inv t doc) := by
  intro u
  cases h : lookupA inv t with
  | none =>
    rw [removeDocTerm_none h]
    exact hne u
  | some ps =>
    rw [removeDocTerm_some h]
    by_cases hemp : ps.filter (fun p => p.doc_id ≠ doc) = []
    · rw [if_pos hemp]
      by_cases htu : t = u
      · subst htu
        rw [lookupA_eraseA_self t hnd]
        simp
      · rw [lookupA_eraseA_ne _ htu]
        exact hne u
    · rw [if_neg hemp, lookupA_insertA]
      by_cases htu : t = u
      · rw [if_pos htu]
        intro hc
        exact hemp (Option.some.inj hc)
      · rw [if_neg htu]
        exact hne u

/-! ### Fold lemmas: removal phase and insertion phase -/

theorem removeFold_keys_sublist (terms : List (Term × Int)) (inv : InvMap) (doc : Int) :
    List.Sublist ((terms.foldl (fun acc kv => removeDocTerm acc kv.1 doc) inv).map Prod.fst)
      (inv.map Prod.fst) := by
  induction terms generalizing inv with
  | nil => exact List.Sublist.refl _
  | cons kv rest ih =>
    simp only [List.foldl_cons]
    exact (ih _).trans (keys_removeDocTerm_sublist inv kv.1 doc)

theorem removeFold_nodup (terms : List (Term × Int)) {inv : InvMap} (doc : Int)
    (hnd : (inv.map Prod.fst).Nodup) :
    ((terms.foldl (fun acc kv => removeDocTerm acc kv.1 doc) inv).map Prod.fst).Nodup :=
  List.Nodup.sublist (removeFold_keys_sublist terms inv doc) hnd

theorem removeFold_noEmpty (terms : List (Term × Int)) {inv : InvMap} (doc : Int)
    (hnd : (inv.map Prod.fst).Nodup) (hne : NoEmptyInv inv) :
    NoEmptyInv (terms.foldl (fun acc kv => removeDocTerm acc kv.1 doc) inv) := by
  induction terms generalizing inv with
  | nil => exact hne
  | cons kv rest ih =>
    simp only [List.foldl_cons]
    exact ih (nodup_keys_removeDocTerm kv.1 doc hnd) (noEmpty_removeDocTerm hnd hne kv.1 doc)

theorem filter_ne_doc_idem (l : List Posting) (doc : Int) :
    (l.filter (fun p => p.doc_id ≠ doc)).filter (fun p => p.doc_id ≠ doc) =
      l.filter (fun p => p.doc_id ≠ doc) := by
  apply List.filter_eq_self.mpr
  intro a ha
  exact (List.mem_filter.1 ha).2

theorem postingsFor_removeFold (terms : List (Term × Int)) {inv : InvMap}
    (hnd : (inv.map Prod.fst).Nodup) (doc : Int) (u : Term) :
    postingsFor (terms.foldl (fun acc kv => removeDocTerm acc kv.1 doc) inv) u =
      if u ∈ terms.map Prod.fst then (postingsFor inv u).filter (fun p => p.doc_id ≠ doc)
      else postingsFor inv u := by
  induction terms generalizing inv with
  | nil => simp
  | cons kv rest ih =>
    simp only [List.foldl_cons, List.map_cons, List.mem_cons]
    rw [ih (nodup_keys_removeDocTerm kv.1 doc hnd),
      postingsFor_removeDocTerm hnd kv.1 doc u]
    by_cases h1 : u ∈ rest.map Prod.fst
    · rw [if_pos h1, if_pos (Or.inr h1)]
      by_cases h2 : kv.1 = u
      · rw [if_pos h2, filter_ne_doc_idem]
      · rw [if_neg h2]
    · rw [if_neg h1]
      by_cases h2 : kv.1 = u
      · rw [if_pos h2, if_pos (Or.inl h2.symm)]
      · rw [if_neg h2, if_neg (by rintro (hc | hc); exact h2 hc.symm; exact h1 hc)]

theorem postingsFor_appendFold (entries : List (Term × Int)) (inv : InvMap) (doc : Int)
    (u : Term) :
    postingsFor (entries.foldl (fun acc kv => appendPosting acc kv.1 ⟨doc, kv.2⟩) inv) u =
      postingsFor inv u
        ++ (entries.filter (fun kv => kv.1 = u)).map (fun kv => (⟨doc, kv.2⟩ : Posting)) := by
  induction entries generalizing inv with
  | nil => simp
  | cons kv rest ih =>
    simp only [List.foldl_cons]
    rw [ih, postingsFor_appendPosting]
    by_cases h : kv.1 = u
    · rw [if_pos h]
      simp [List.filter_cons, h]
    · rw [if_neg h]
      simp [List.filter_cons, h]

theorem appendFold_nodup (entries : List (Term × Int)) {inv : InvMap} (doc : Int)
    (hnd : (inv.map Prod.fst).Nodup) :
    ((entries.foldl (fun acc kv => appendPosting acc kv.1 ⟨doc, kv.2⟩) inv).map Prod.fst).Nodup := by
  induction entries generalizing inv with
  | nil => exact hnd
  | cons kv rest ih =>
    simp only [List.foldl_cons]
    exact ih (nodup_keys_appendPosting kv.1 _ hnd)

theorem appendFold_noEmpty (entries : List (Term × Int)) {inv : InvMap} (doc : Int)
    (hne : NoEmptyInv inv) :
    NoEmptyInv (entries.foldl (fun acc kv => appendPosting acc kv.1 ⟨doc, kv.2⟩) inv) := by
  induction entries generalizing inv with
  | nil => exact hne
  | cons kv rest ih =>
    simp only [List.foldl_cons]
    exact ih (noEmpty_appendPosting hne kv.1 _)

/-! ### Well-formedness: invariants 1-3 of the data model plus the internal
map invariants (unique keys, positive stored frequencies) that the C++
containers provide by construction. -/

structure Wf (idx : Index) : Prop where
  invKeys : (idx.inverted.map Prod.fst).Nodup
  fwdKeys : (idx.forward.map Prod.fst).Nodup
  fwdTermKeys : ∀ d : Int, ((fwdEntry idx.forward d).map Prod.fst).Nodup
  fwdPos : ∀ d : Int, ∀ kv ∈ fwdEntry idx.forward d, (0 : Int) < kv.2
  noEmpty : NoEmptyInv idx.inverted
  postNodup : ∀ t : Term, ((postingsFor idx.inverted t).map Posting.doc_id).Nodup
  consist : ∀ (d : Int) (t : Term) (f : Int),
    (t, f) ∈ fwdEntry idx.forward d ↔ (⟨d, f⟩ : Posting) ∈ postingsFor idx.inverted t

theorem wf_empty : Wf Index.empty where
  invKeys := List.nodup_nil
  fwdKeys := List.nodup_nil
  fwdTermKeys := fun _ => by simp [fwdEntry, lookupA]
  fwdPos := fun _ kv h => by simp [fwdEntry, lookupA] at h
  noEmpty := fun _ => by simp [lookupA]
  postNodup := fun _ => by simp [postingsFor, lookupA]
  consist := fun _ _ _ => by simp [fwdEntry, postingsFor, lookupA]

theorem remove_postings {idx : Index} (h : Wf idx) (doc : Int) (u : Term) :
    postingsFor (remove_document idx doc).inverted u =
      (postingsFor idx.inverted u).filter (fun p => p.doc_id ≠ doc) := by
  show postingsFor (((lookupA idx.forward doc).getD []).foldl
      (fun inv kv => removeDocTerm inv kv.1 doc) idx.inverted) u = _
  rw [postingsFor_removeFold _ h.invKeys]
  by_cases hm : u ∈ ((lookupA idx.forward doc).getD []).map Prod.fst
  · rw [if_pos hm]
  · rw [if_neg hm]
    symm
    apply List.filter_eq_self.mpr
    intro p hp
    rw [decide_eq_true_eq]
    intro hcon
    have hp' : (⟨doc, p.freq⟩ : Posting) ∈ postingsFor idx.inverted u := by
      have hpe : p = (⟨doc, p.freq⟩ : Posting) := by
        cases p with
        | mk d f => cases hcon; rfl
      rwa [hpe] at hp
    have hf : (u, p.freq) ∈ fwdEntry idx.forward doc := (h.consist doc u p.freq).2 hp'
    exact hm (List.mem_map_of_mem Prod.fst hf)

theorem remove_fwd_self {idx : Index} (h : Wf idx) (doc : Int) :
    lookupA (remove_document idx doc).forward doc = none :=
  lookupA_eraseA_self doc h.fwdKeys

theorem remove_fwd_ne (idx : Index) {doc d : Int} (hne : doc ≠ d) :
    lookupA (remove_document idx doc).forward d = lookupA idx.forward d :=
  lookupA_eraseA_ne _ hne

theorem wf_remove {idx : Index} (h : Wf idx) (doc : Int) :
    Wf (remove_document idx doc) where
  invKeys := removeFold_nodup _ doc h.invKeys
  fwdKeys := List.Nodup.sublist ((eraseA_sublist _ doc).map Prod.fst) h.fwdKeys
  fwdTermKeys := fun d => by
    by_cases hd : doc = d
    · subst hd
      unfold fwdEntry
      rw [remove_fwd_self h doc]
      exact List.nodup_nil
    · unfold fwdEntry
      rw [remove_fwd_ne idx hd]
      exact h.fwdTermKeys d
  fwdPos := fun d kv hkv => by
    by_cases hd : doc = d
    · subst hd
      unfold fwdEntry at hkv
      rw [remove_fwd_self h doc] at hkv
      simp at hkv
    · unfold fwdEntry at hkv
      rw [remove_fwd_ne idx hd] at hkv
      exact h.fwdPos d kv hkv
  noEmpty := removeFold_noEmpty _ doc h.invKeys h.noEmpty
  postNodup := fun t => by
    rw [remove_postings h doc t]
    exact List.Nodup.sublist ((List.filter_sublist _).map Posting.doc_id) (h.postNodup t)
  consist := fun d t f => by
    rw [remove_postings h doc t]
    by_cases hd : doc = d
    · subst hd
      unfold fwdEntry
      rw [remove_fwd_self h doc]
      simp only [Option.getD_none]
      constructor
      · intro hc
        exact absurd hc (List.not_mem_nil _)
      · intro hc
        have hne := (List.mem_filter.1 hc).2
        rw [decide_eq_true_eq] at hne
        exact absurd rfl hne
    · unfold fwdEntry
      rw [remove_fwd_ne idx hd]
      constructor
      · intro hm
        rw [List.mem_filter]
        refine ⟨(h.consist d t f).1 hm, ?_⟩
        rw [decide_eq_true_eq]
        exact fun hc => hd hc.symm
      · intro hm
        exact (h.consist d t f).2 (List.mem_filter.1 hm).1

/-! ### Single-key filters over term-frequency maps -/

theorem filter_key_eq_nil {l : List (Term × Int)} {u : Term}
    (hm : u ∉ l.map Prod.fst) : l.filter (fun kv => kv.1 = u) = [] := by
  induction l with
  | nil => rfl
  | cons kv rest ih =>
    rw [List.map_cons, List.mem_cons] at hm
    have h1 : ¬(kv.1 = u) := fun hc => hm (Or.inl hc.symm)
    have h2 : u ∉ rest.map Prod.fst := fun hc => hm (Or.inr hc)
    simp only [List.filter_cons, decide_eq_true_eq, if_neg h1]
    exact ih h2

theorem filter_key_eq_of_mem {l : List (Term × Int)} (hnd : (l.map Prod.fst).Nodup)
    {u : Term} {f : Int} (hm : (u, f) ∈ l) :
    l.filter (fun kv => kv.1 = u) = [(u, f)] := by
  induction l with
  | nil => simp at hm
  | cons kv rest ih =>
    obtain ⟨a, b⟩ := kv
    rw [List.map_cons] at hnd
    have hnd1 : a ∉ rest.map Prod.fst := (List.nodup_cons.1 hnd).1
    have hnd2 : (rest.map Prod.fst).Nodup := (List.nodup_cons.1 hnd).2
    rcases List.mem_cons.1 hm with he | hmem
    · have h1 : u = a := congrArg Prod.fst he
      have h2 : f = b := congrArg Prod.snd he
      subst h1; subst h2
      simp only [List.filter_cons, decide_eq_true_eq, if_pos rfl]
      rw [filter_key_eq_nil hnd1]
      simp
    · have hau : ¬(a = u) := by
        intro hc
        subst hc
        exact hnd1 (List.mem_map_of_mem Prod.fst hmem)
      simp only [List.filter_cons, decide_eq_true_eq, if_neg hau]
      exact ih hnd2 hmem

/-! ### Upsert characterisation -/

theorem upsert_postings {idx : Index} (h : Wf idx) (doc : Int) (tf : List (Term × Int))
    (u : Term) :
    postingsFor (upsert_document idx doc tf).inverted u =
      (postingsFor idx.inverted u).filter (fun p => p.doc_id ≠ doc)
        ++ ((tf.filter (fun kv => 0 < kv.2)).filter (fun kv => kv.1 = u)).map
            (fun kv => (⟨doc, kv.2⟩ : Posting)) := by
  show postingsFor ((tf.filter (fun kv => 0 < kv.2)).foldl
      (fun inv kv => appendPosting inv kv.1 ⟨doc, kv.2⟩)
      (remove_document idx doc).inverted) u = _
  rw [postingsFor_appendFold, remove_postings h doc u]

theorem upsert_fwd (idx : Index) (doc : Int) (tf : List (Term × Int)) (d : Int) :
    lookupA (upsert_document idx doc tf).forward d =
      if doc = d then some (tf.filter (fun kv => 0 < kv.2))
      else lookupA (remove_document idx doc).forward d :=
  lookupA_insertA _ doc _ d

theorem wf_upsert {idx : Index} (h : Wf idx) (doc : Int) {tf : List (Term × Int)}
    (hnd : (tf.map Prod.fst).Nodup) : Wf (upsert_document idx doc tf) where
  invKeys := appendFold_nodup _ doc (wf_remove h doc).invKeys
  fwdKeys := nodup_keys_insertA doc _ (wf_remove h doc).fwdKeys
  fwdTermKeys := fun d => by
    unfold fwdEntry
    rw [upsert_fwd]
    by_cases hd : doc = d
    · rw [if_pos hd]
      simp only [Option.getD_some]
      exact List.Nodup.sublist ((List.filter_sublist tf).map Prod.fst) hnd
    · rw [if_neg hd]
      exact (wf_remove h doc).fwdTermKeys d
  fwdPos := fun d kv hkv => by
    unfold fwdEntry at hkv
    rw [upsert_fwd] at hkv
    by_cases hd : doc = d
    · rw [if_pos hd] at hkv
      simp only [Option.getD_some] at hkv
      have hpos := (List.mem_filter.1 hkv).2
      rwa [decide_eq_true_eq] at hpos
    · rw [if_neg hd] at hkv
      exact (wf_remove h doc).fwdPos d kv hkv
  noEmpty := appendFold_noEmpty _ doc (wf_remove h doc).noEmpty
  postNodup := fun t => by
    rw [upsert_postings h doc tf t, List.map_append, List.nodup_append]
    refine ⟨List.Nodup.sublist ((List.filter_sublist _).map _) (h.postNodup t), ?_, ?_⟩
    · have hsub : ((tf.filter (fun kv => 0 < kv.2)).map Prod.fst).Nodup :=
        List.Nodup.sublist ((List.filter_sublist tf).map Prod.fst) hnd
      by_cases hm : t ∈ (tf.filter (fun kv => 0 < kv.2)).map Prod.fst
      · rcases List.mem_map.1 hm with ⟨kv, hkv, hfst⟩
        obtain ⟨a, b⟩ := kv
        cases hfst
        rw [filter_key_eq_of_mem hsub hkv]
        simp
      · rw [filter_key_eq_nil hm]
        simp
    · intro x hx hy
      rcases List.mem_map.1 hx with ⟨p, hp, hpx⟩
      rcases List.mem_map.1 hy with ⟨q, hq, hqx⟩
      rcases List.mem_map.1 hq with ⟨kv, _, hkvq⟩
      have hxdoc : x = doc := by
        rw [← hqx, ← hkvq]
      have hpne := (List.mem_filter.1 hp).2
      rw [decide_eq_true_eq] at hpne
      exact hpne (by rw [hpx, hxdoc])
  consist := fun d t f => by
    rw [upsert_postings h doc tf t]
    unfold fwdEntry
    rw [upsert_fwd]
    by_cases hd : doc = d
    · subst hd
      rw [if_pos rfl]
      simp only [Option.getD_some]
      constructor
      · intro hm
        apply List.mem_append.2
        right
        apply List.mem_map.2
        refine ⟨(t, f), ?_, rfl⟩
        rw [List.mem_filter]
        exact ⟨hm, by rw [decide_eq_true_eq]⟩
      · intro hm
        rcases List.mem_append.1 hm with h1 | h2
        · have hne := (List.mem_filter.1 h1).2
          rw [decide_eq_true_eq] at hne
          exact absurd rfl hne
        · rcases List.mem_map.1 h2 with ⟨kv, hkv, heq⟩
          obtain ⟨a, b⟩ := kv
          have hb : b = f := congrArg Posting.freq heq
          have ha : a = t := by
            have hfl := (List.mem_filter.1 hkv).2
            rwa [decide_eq_true_eq] at hfl
          subst hb; subst ha
          exact (List.mem_filter.1 hkv).1
    · rw [if_neg hd, remove_fwd_ne idx hd]
      constructor
      · intro hm
        apply List.mem_append.2
        left
        rw [List.mem_filter]
        refine ⟨(h.consist d t f).1 hm, ?_⟩
        rw [decide_eq_true_eq]
        exact fun hc => hd hc.symm
      · intro hm
        rcases List.mem_append.1 hm with h1 | h2
        · exact (h.consist d t f).2 (List.mem_filter.1 h1).1
        · rcases List.mem_map.1 h2 with ⟨kv, _, heq⟩
          exact absurd (congrArg Posting.doc_id heq) hd

/-! ### Claim C1: upsert then empty upsert for doc 7 -/

/-- C1 counterexample: after `upsert_document(7, {"x":3})` followed by
`upsert_document(7, {})` on a fresh index, the forward map still contains an
entry for doc 7 (mapping to the empty term list), because `upsert_document`
unconditionally executes `forward_[doc_id] = forward_terms`.  This refutes the
claim's assertion that the forward index contains no entry for doc 7. -/
theorem upsert_empty_forward_entry_remains :
    ¬ (lookupA (upsert_document (upsert_document Index.empty 7 [([120], 3)]) 7 []).forward 7
        = none) := by decide

/-- C1 amended: after `upsert_document(7, {"x":3})` then `upsert_document(7, {})`
on a fresh index, no term's posting list contains any posting with `doc_id = 7`
(indeed both shard maps are empty), but the forward index maps doc 7 to an
empty entry rather than containing no entry for it. -/
theorem upsert_empty_clears_postings :
    (∀ t : Term,
      (postingsFor (upsert_document (upsert_document Index.empty 7 [([120], 3)]) 7 []).inverted
        t).filter (fun p => p.doc_id = 7) = [])
    ∧ lookupA (upsert_document (upsert_document Index.empty 7 [([120], 3)]) 7 []).forward 7
        = some [] :=
  ⟨fun _ => rfl, rfl⟩

/-! ### Claim C2: upsert twice replaces -/

/-- C2: for every well-formed index, doc id and term-frequency maps `TF1`,
`TF2` (maps, hence with distinct keys), after `upsert(doc, TF1)` then
`upsert(doc, TF2)` every term of `TF2` with positive frequency carries exactly
one posting for `doc`, with the frequency given by `TF2`, and no term outside
`TF2` carries any posting for `doc`. -/
theorem upsert_twice_replaces (idx : Index) (h : Wf idx) (doc : Int)
    (tf1 tf2 : List (Term × Int)) (hnd1 : (tf1.map Prod.fst).Nodup)
    (hnd2 : (tf2.map Prod.fst).Nodup) :
    (∀ t f, (t, f) ∈ tf2 → 0 < f →
      (postingsFor (upsert_document (upsert_document idx doc tf1) doc tf2).inverted t).filter
        (fun p => p.doc_id = doc) = [⟨doc, f⟩])
    ∧ (∀ t : Term, t ∉ tf2.map Prod.fst →
      (postingsFor (upsert_document (upsert_document idx doc tf1) doc tf2).inverted t).filter
        (fun p => p.doc_id = doc) = []) := by
  have hmid : Wf (upsert_document idx doc tf1) := wf_upsert h doc hnd1
  have hpre : ∀ t : Term,
      ((postingsFor (upsert_document idx doc tf1).inverted t).filter
        (fun p => p.doc_id ≠ doc)).filter (fun p => p.doc_id = doc) = [] := by
    intro t
    rw [List.filter_eq_nil_iff]
    intro p hp
    have hne := (List.mem_filter.1 hp).2
    rw [decide_eq_true_eq] at hne
    rw [decide_eq_true_eq]
    exact hne
  have hkeys : ((tf2.filter (fun kv => 0 < kv.2)).map Prod.fst).Nodup :=
    List.Nodup.sublist ((List.filter_sublist tf2).map Prod.fst) hnd2
  constructor
  · intro t f hmem hpos
    rw [upsert_postings hmid doc tf2 t, List.filter_append, hpre t]
    have hment : (t, f) ∈ tf2.filter (fun kv => 0 < kv.2) := by
      rw [List.mem_filter]
      exact ⟨hmem, by rw [decide_eq_true_eq]; exact hpos⟩
    rw [filter_key_eq_of_mem hkeys hment]
    simp
  · intro t hnotin
    rw [upsert_postings hmid doc tf2 t, List.filter_append, hpre t]
    have hnotin2 : t ∉ (tf2.filter (fun kv => 0 < kv.2)).map Prod.fst := by
      intro hc
      rcases List.mem_map.1 hc with ⟨kv, hkv, hfst⟩
      exact hnotin (hfst ▸ List.mem_map_of_mem Prod.fst (List.mem_filter.1 hkv).1)
    rw [filter_key_eq_nil hnotin2]
    simp

/-- C2 witness: a concrete instance of `upsert_twice_replaces` on the empty
index with `TF1 = {a:2}` and `TF2 = {b:4}`. -/
theorem upsert_twice_replaces_witness :
    (postingsFor (upsert_document (upsert_document Index.empty 5 [([97], 2)]) 5
      [([98], 4)]).inverted [98]).filter (fun p => p.doc_id = 5) = [⟨5, 4⟩] :=
  (upsert_twice_replaces Index.empty wf_empty 5 [([97], 2)] [([98], 4)]
    (by decide) (by decide)).1 [98] 4 (by decide) (by decide)

/-! ### Claim C3: invariants hold after arbitrary quiescent op sequences -/

/-- An operation on the index: an upsert with a term-frequency map, or a
document removal. -/
inductive Op where
  | upsert (doc : Int) (tf : List (Term × Int))
  | remove (doc : Int)

/-- Apply one operation. -/
def applyOp (idx : Index) : Op → Index
  | .upsert d tf => upsert_document idx d tf
  | .remove d => remove_document idx d

/-- Run a sequence of operations from the fresh index. -/
def applyOps (ops : List Op) : Index := ops.foldl applyOp Index.empty

/-- A term-frequency argument is a map, so its keys are distinct. -/
def Op.wfTF : Op → Prop
  | .upsert _ tf => (tf.map Prod.fst).Nodup
  | .remove _ => True

instance : DecidablePred Op.wfTF := fun op =>
  match op with
  | .upsert _ tf => inferInstanceAs (Decidable ((tf.map Prod.fst).Nodup))
  | .remove _ => inferInstanceAs (Decidable True)

theorem wf_applyOp {idx : Index} (h : Wf idx) {op : Op} (hop : op.wfTF) :
    Wf (applyOp idx op) := by
  cases op with
  | upsert d tf => exact wf_upsert h d hop
  | remove d => exact wf_remove h d

theorem wf_foldl {idx : Index} (h : Wf idx) (ops : List Op)
    (hops : ∀ op ∈ ops, op.wfTF) : Wf (ops.foldl applyOp idx) := by
  induction ops generalizing idx with
  | nil => exact h
  | cons op rest ih =>
    simp only [List.foldl_cons]
    exact ih (wf_applyOp h (hops op (List.mem_cons_self op rest)))
      (fun o ho => hops o (List.mem_cons_of_mem op ho))

/-- C3: starting from the empty index, after any finite sequence of
(non-overlapping, hence sequentially modelled) upserts and removes, the data
model invariants hold: forward/inverted consistency, no term key with an empty
posting list, no duplicated doc id inside a posting list, and `stats` returns
the size of the forward map, the number of term keys and the total posting
count. -/
theorem invariants_hold (ops : List Op) (hops : ∀ op ∈ ops, op.wfTF) :
    (∀ (d : Int) (t : Term) (f : Int),
      (t, f) ∈ fwdEntry (applyOps ops).forward d ↔
        (⟨d, f⟩ : Posting) ∈ postingsFor (applyOps ops).inverted t)
    ∧ (∀ e ∈ (applyOps ops).inverted, e.2 ≠ [])
    ∧ (∀ e ∈ (applyOps ops).inverted, (e.2.map Posting.doc_id).Nodup)
    ∧ (applyOps ops).stats.documents = (applyOps ops).forward.length
    ∧ (applyOps ops).stats.terms = (applyOps ops).inverted.length
    ∧ (applyOps ops).stats.postings
        = ((applyOps ops).inverted.map (fun e => e.2.length)).sum := by
  have hwf : Wf (applyOps ops) := wf_foldl wf_empty ops hops
  refine ⟨hwf.consist, ?_, ?_, rfl, rfl, rfl⟩
  · intro e he hemp
    have hl : lookupA (applyOps ops).inverted e.1 = some e.2 :=
      lookupA_of_mem_nodup hwf.invKeys (by rw [show (e.1, e.2) = e from rfl]; exact he)
    rw [hemp] at hl
    exact hwf.noEmpty e.1 hl
  · intro e he
    have hl : lookupA (applyOps ops).inverted e.1 = some e.2 :=
      lookupA_of_mem_nodup hwf.invKeys (by rw [show (e.1, e.2) = e from rfl]; exact he)
    have hp := hwf.postNodup e.1
    unfold postingsFor at hp
    rw [hl] at hp
    exact hp

/-- C3 witness: a concrete operation sequence (two upserts and one remove). -/
theorem invariants_hold_witness :
    (∀ op ∈ [Op.upsert 1 [([97], 2), ([98], 1)], Op.remove 1, Op.upsert 2 [([98], 5)]],
      op.wfTF)
    ∧ (∀ e ∈ (applyOps [Op.upsert 1 [([97], 2), ([98], 1)], Op.remove 1,
        Op.upsert 2 [([98], 5)]]).inverted, e.2 ≠ []) :=
  ⟨by decide,
    (invariants_hold [Op.upsert 1 [([97], 2), ([98], 1)], Op.remove 1,
      Op.upsert 2 [([98], 5)]] (by decide)).2.1⟩

/-! ### Search (claim C4)

The C++ accumulates `double` scores; each score is a sum of `int` frequencies,
exact in double precision for the representable range, so scores are modelled
as exact integers. -/

/-- Model of `SearchResult` from `inverted_index.h`. -/
structure SearchResult where
  doc_id : Int
  score : Int
deriving DecidableEq, Repr

/-- Model of `scores[p.doc_id] += p.freq` (operator[] default-constructs 0). -/
def bumpScore (scores : List (Int × Int)) (doc : Int) (f : Int) : List (Int × Int) :=
  insertA scores doc ((lookupA scores doc).getD 0 + f)

/-- Body of the accumulation loop of `search` for one query term: empty terms
are skipped, absent terms contribute nothing, otherwise every posting's
frequency is added to its document's score. -/
def accumTerm (inv : InvMap) (sc : List (Int × Int)) (term : Term) : List (Int × Int) :=
  if term = [] then sc
  else
    match lookupA inv term with
    | none => sc
    | some ps => ps.foldl (fun sc2 p => bumpScore sc2 p.doc_id p.freq) sc

/-- The score accumulator after the term loop of `search`. -/
def accumScores (inv : InvMap) (query_terms : List Term) : List (Int × Int) :=
  query_terms.foldl (accumTerm inv) []

/-- The `std::sort` comparator of `search` as a non-strict total order:
score descending, ties by ascending doc id. -/
def resLe (a b : SearchResult) : Prop :=
  b.score < a.score ∨ (b.score = a.score ∧ a.doc_id ≤ b.doc_id)

/-- The strict version of the comparator: this is literally the C++ lambda
`a.score != b.score ? a.score > b.score : a.doc_id < b.doc_id`. -/
def resLt (a b : SearchResult) : Prop :=
  b.score < a.score ∨ (b.score = a.score ∧ a.doc_id < b.doc_id)

instance : DecidableRel resLe := fun a b =>
  inferInstanceAs (Decidable (b.score < a.score ∨ (b.score = a.score ∧ a.doc_id ≤ b.doc_id)))

instance : IsTotal SearchResult resLe := ⟨by
  intro a b
  unfold resLe
  rcases lt_trichotomy a.score b.score with h | h | h
  · right; left; exact h
  · rcases le_total a.doc_id b.doc_id with h2 | h2
    · left; right; exact ⟨h.symm, h2⟩
    · right; right; exact ⟨h, h2⟩
  · left; left; exact h⟩

instance : IsTrans SearchResult resLe := ⟨by
  intro a b c hab hbc
  unfold resLe at hab hbc ⊢
  rcases hab with h1 | ⟨h1, h2⟩
  · rcases hbc with h3 | ⟨h3, h4⟩
    · left; exact lt_trans h3 h1
    · left; rw [h3]; exact h1
  · rcases hbc with h3 | ⟨h3, h4⟩
    · left; rw [← h1]; exact h3
    · right; exact ⟨h3.trans h1, le_trans h2 h4⟩⟩

/-- The sorted (untruncated) result sequence of `search`. -/
def sortedResults (inv : InvMap) (query_terms : List Term) : List SearchResult :=
  List.insertionSort resLe
    ((accumScores inv query_terms).map (fun kv => SearchResult.mk kv.1 kv.2))

/-- Model of `ConcurrentInvertedIndex::search`: accumulate, sort, truncate
(`top_k == 0` means no limit). -/
def search (inv : InvMap) (query_terms : List Term) (top_k : Nat) : List SearchResult :=
  if top_k ≠ 0 ∧ (sortedResults inv query_terms).length > top_k then
    (sortedResults inv query_terms).take top_k
  else sortedResults inv query_terms

theorem nodup_keys_bumpFold (ps : List Posting) (sc : List (Int × Int))
    (hnd : (sc.map Prod.fst).Nodup) :
    ((ps.foldl (fun sc2 p => bumpScore sc2 p.doc_id p.freq) sc).map Prod.fst).Nodup := by
  induction ps generalizing sc with
  | nil => exact hnd
  | cons p rest ih =>
    simp only [List.foldl_cons]
    exact ih _ (nodup_keys_insertA p.doc_id _ hnd)

theorem nodup_keys_accumTerm (inv : InvMap) (sc : List (Int × Int)) (term : Term)
    (hnd : (sc.map Prod.fst).Nodup) : ((accumTerm inv sc term).map Prod.fst).Nodup := by
  unfold accumTerm
  by_cases he : term = []
  · rw [if_pos he]; exact hnd
  · rw [if_neg he]
    cases lookupA inv term with
    | none => exact hnd
    | some ps => exact nodup_keys_bumpFold ps sc hnd

theorem nodup_keys_accumScores (inv : InvMap) (query_terms : List Term) :
    ((accumScores inv query_terms).map Prod.fst).Nodup := by
  unfold accumScores
  have hgen : ∀ sc : List (Int × Int), (sc.map Prod.fst).Nodup →
      ((query_terms.foldl (accumTerm inv) sc).map Prod.fst).Nodup := by
    induction query_terms with
    | nil => exact fun sc h => h
    | cons t rest ih =>
      intro sc h
      simp only [List.foldl_cons]
      exact ih _ (nodup_keys_accumTerm inv sc t h)
  exact hgen [] List.nodup_nil

theorem sortedResults_docs_nodup (inv : InvMap) (query_terms : List Term) :
    ((sortedResults inv query_terms).map SearchResult.doc_id).Nodup := by
  have hperm : List.Perm (sortedResults inv query_terms)
      ((accumScores inv query_terms).map (fun kv => SearchResult.mk kv.1 kv.2)) :=
    List.perm_insertionSort resLe _
  have hperm2 := hperm.map SearchResult.doc_id
  apply hperm2.nodup_iff.2
  rw [List.map_map]
  exact nodup_keys_accumScores inv query_terms

theorem sortedResults_pairwise (inv : InvMap) (query_terms : List Term) :
    (sortedResults inv query_terms).Pairwise resLt := by
  have hs : (sortedResults inv query_terms).Pairwise resLe :=
    List.sorted_insertionSort resLe _
  have hne : (sortedResults inv query_terms).Pairwise
      (fun a b => a.doc_id ≠ b.doc_id) :=
    List.pairwise_map.1 (sortedResults_docs_nodup inv query_terms)
  refine (hs.and hne).imp ?_
  rintro a b ⟨hle, hned⟩
  rcases hle with h1 | ⟨h1, h2⟩
  · exact Or.inl h1
  · exact Or.inr ⟨h1, lt_of_le_of_ne h2 hned⟩

/-- C4: for every index state, query term list and `top_k`, the result of
`search` is sorted strictly by score descending with ties broken by ascending
doc id; a positive `top_k` bounds the length by `top_k`; `top_k = 0` applies
no truncation at all. -/
theorem search_sorted_truncated (inv : InvMap) (query_terms : List Term) (top_k : Nat) :
    (search inv query_terms top_k).Pairwise resLt
    ∧ (top_k ≠ 0 → (search inv query_terms top_k).length ≤ top_k)
    ∧ (top_k = 0 → search inv query_terms top_k = sortedResults inv query_terms) := by
  refine ⟨?_, ?_, ?_⟩
  · unfold search
    by_cases hc : top_k ≠ 0 ∧ (sortedResults inv query_terms).length > top_k
    · rw [if_pos hc]
      exact (sortedResults_pairwise inv query_terms).sublist (List.take_sublist _ _)
    · rw [if_neg hc]
      exact sortedResults_pairwise inv query_terms
  · intro hk
    unfold search
    by_cases hc : top_k ≠ 0 ∧ (sortedResults inv query_terms).length > top_k
    · rw [if_pos hc]
      simp [List.length_take]
    · rw [if_neg hc]
      rcases not_and_or.1 hc with h1 | h2
      · exact absurd hk h1
      · exact le_of_not_lt h2
  · intro hk
    unfold search
    rw [if_neg (by rw [hk]; simp)]

/-- C4 witness: concrete instantiation with a two-posting term and `top_k = 1`. -/
theorem search_sorted_truncated_witness :
    (1 : Nat) ≠ 0 ∧
      (search [([97], [⟨1, 2⟩, ⟨2, 2⟩])] [[97]] 1).length ≤ 1 :=
  ⟨by decide, (search_sorted_truncated [([97], [⟨1, 2⟩, ⟨2, 2⟩])] [[97]] 1).2.1 (by decide)⟩

/-! ### Tokenizer (claims C6, C7)

Byte-oriented, as in `tokenizer.cpp`: `std::isalpha`/`std::isdigit`/`std::tolower`
in the default "C" locale act on bytes, so only the ASCII ranges are letters
and digits and only `A`-`Z` fold to lowercase. -/

/-- Model of `TokenizerConfig` from `tokenizer.h`. -/
structure TokenizerConfig where
  to_lower : Bool := true
  min_token_len : Nat := 2
  max_token_len : Nat := 64
  keep_digits : Bool := true
deriving Repr

/-- Model of `Tokenizer::is_alpha` (C locale): ASCII letters only. -/
def is_alpha (c : Nat) : Bool := (65 ≤ c && c ≤ 90) || (97 ≤ c && c ≤ 122)

/-- Model of `Tokenizer::is_digit`: ASCII digits. -/
def is_digit (c : Nat) : Bool := 48 ≤ c && c ≤ 57

/-- Model of `Tokenizer::is_token_char`: letters, plus digits when enabled. -/
def is_token_char (cfg : TokenizerConfig) (c : Nat) : Bool :=
  is_alpha c || (cfg.keep_digits && is_digit c)

/-- Model of `Tokenizer::normalize_char`: ASCII `tolower` when `to_lower` is set. -/
def normalize_char (cfg : TokenizerConfig) (c : Nat) : Nat :=
  if cfg.to_lower then (if 65 ≤ c ∧ c ≤ 90 then c + 32 else c) else c

/-- The scan loop of `Tokenizer::tokenize`, carrying the current run `cur`.
Token characters extend `cur` while it is below the cap and are dropped
otherwise; other bytes close the run, emitting it when it reaches the minimum
length; end of input closes the final run the same way. -/
def tokenizeAux (cfg : TokenizerConfig) : List Nat → List Nat → List (List Nat)
  | [], cur => if cfg.min_token_len ≤ cur.length then [cur] else []
  | c :: rest, cur =>
    if is_token_char cfg c then
      if cur.length < cfg.max_token_len then
        tokenizeAux cfg rest (cur ++ [normalize_char cfg c])
      else
        tokenizeAux cfg rest cur
    else
      if cfg.min_token_len ≤ cur.length then
        cur :: tokenizeAux cfg rest []
      else
        tokenizeAux cfg rest []

/-- Model of `Tokenizer::tokenize`. -/
def tokenize (cfg : TokenizerConfig) (text : List Nat) : List (List Nat) :=
  tokenizeAux cfg text []

/-- Joining a token list with single spaces (byte 32). -/
def joinSpace : List (List Nat) → List Nat
  | [] => []
  | [t] => t
  | t :: u :: rest => t ++ 32 :: joinSpace (u :: rest)

/-- A well-formed emitted token: every byte is a token character fixed by
normalization, and the length is within the configured bounds. -/
def GoodTok (cfg : TokenizerConfig) (t : List Nat) : Prop :=
  (∀ c ∈ t, is_token_char cfg c = true ∧ normalize_char cfg c = c)
  ∧ cfg.min_token_len ≤ t.length ∧ t.length ≤ cfg.max_token_len

theorem space_not_token (cfg : TokenizerConfig) : is_token_char cfg 32 = false := by
  simp [is_token_char, is_alpha, is_digit]

theorem norm_token_fix (cfg : TokenizerConfig) (c : Nat) (h : is_token_char cfg c = true) :
    is_token_char cfg (normalize_char cfg c) = true
    ∧ normalize_char cfg (normalize_char cfg c) = normalize_char cfg c := by
  simp only [is_token_char, is_alpha, is_digit, Bool.or_eq_true, Bool.and_eq_true,
    decide_eq_true_eq] at h ⊢
  unfold normalize_char
  by_cases hl : cfg.to_lower
  · simp only [if_pos hl]
    by_cases hr : 65 ≤ c ∧ c ≤ 90
    · rw [if_pos hr, if_neg (by omega)]
      refine ⟨Or.inl (Or.inr (by omega)), rfl⟩
    · rw [if_neg hr, if_neg hr]
      exact ⟨h, rfl⟩
  · simp only [if_neg hl]
    exact ⟨h, trivial⟩

theorem tokenizeAux_nil (cfg : TokenizerConfig) (cur : List Nat) :
    tokenizeAux cfg [] cur = if cfg.min_token_len ≤ cur.length then [cur] else [] := rfl

theorem tokenizeAux_cons (cfg : TokenizerConfig) (c : Nat) (rest cur : List Nat) :
    tokenizeAux cfg (c :: rest) cur =
      if is_token_char cfg c then
        if cur.length < cfg.max_token_len then
          tokenizeAux cfg rest (cur ++ [normalize_char cfg c])
        else tokenizeAux cfg rest cur
      else
        if cfg.min_token_len ≤ cur.length then cur :: tokenizeAux cfg rest []
        else tokenizeAux cfg rest [] := rfl

theorem tokenizeAux_good (cfg : TokenizerConfig) (text : List Nat) :
    ∀ cur : List Nat,
      (∀ c ∈ cur, is_token_char cfg c = true ∧ normalize_char cfg c = c) →
      cur.length ≤ cfg.max_token_len →
      ∀ tok ∈ tokenizeAux cfg text cur, GoodTok cfg tok := by
  induction text with
  | nil =>
    intro cur hcur hlen tok htok
    unfold tokenizeAux at htok
    by_cases hm : cfg.min_token_len ≤ cur.length
    · rw [if_pos hm] at htok
      rw [List.mem_singleton.1 htok]
      exact ⟨hcur, hm, hlen⟩
    · rw [if_neg hm] at htok
      exact absurd htok (List.not_mem_nil tok)
  | cons c rest ih =>
    intro cur hcur hlen tok htok
    unfold tokenizeAux at htok
    by_cases htc : is_token_char cfg c = true
    · rw [if_pos htc] at htok
      by_cases hcap : cur.length < cfg.max_token_len
      · rw [if_pos hcap] at htok
        refine ih (cur ++ [normalize_char cfg c]) ?_ ?_ tok htok
        · intro d hd
          rcases List.mem_append.1 hd with h1 | h2
          · exact hcur d h1
          · rw [List.mem_singleton.1 h2]
            exact norm_token_fix cfg c htc
        · rw [List.length_append, List.length_singleton]
          omega
      · rw [if_neg hcap] at htok
        exact ih cur hcur hlen tok htok
    · rw [if_neg htc] at htok
      by_cases hm : cfg.min_token_len ≤ cur.length
      · rw [if_pos hm] at htok
        rcases List.mem_cons.1 htok with he | hmem
        · rw [he]
          exact ⟨hcur, hm, hlen⟩
        · exact ih [] (by intro d hd; exact absurd hd (List.not_mem_nil d))
            (Nat.zero_le _) tok hmem
      · rw [if_neg hm] at htok
        exact ih [] (by intro d hd; exact absurd hd (List.not_mem_nil d))
          (Nat.zero_le _) tok htok

theorem tokenizeAux_ne_nil_of_min_zero (cfg : TokenizerConfig)
    (hz : cfg.min_token_len = 0) (text : List Nat) :
    ∀ cur : List Nat, tokenizeAux cfg text cur ≠ [] := by
  induction text with
  | nil =>
    intro cur
    unfold tokenizeAux
    rw [if_pos (by omega)]
    simp
  | cons c rest ih =>
    intro cur
    unfold tokenizeAux
    by_cases htc : is_token_char cfg c = true
    · rw [if_pos htc]
      by_cases hcap : cur.length < cfg.max_token_len
      · rw [if_pos hcap]; exact ih _
      · rw [if_neg hcap]; exact ih _
    · rw [if_neg htc, if_pos (by omega)]
      simp

theorem tokenizeAux_consume (cfg : TokenizerConfig) (t : List Nat)
    (ht : ∀ c ∈ t, is_token_char cfg c = true ∧ normalize_char cfg c = c) :
    ∀ (s cur : List Nat), cur.length + t.length ≤ cfg.max_token_len →
      tokenizeAux cfg (t ++ s) cur = tokenizeAux cfg s (cur ++ t) := by
  induction t with
  | nil =>
    intro s cur _
    rw [List.nil_append, List.append_nil]
  | cons c rest ih =>
    intro s cur hlen
    have hc := ht c (List.mem_cons_self c rest)
    have hrest : ∀ d ∈ rest, is_token_char cfg d = true ∧ normalize_char cfg d = d :=
      fun d hd => ht d (List.mem_cons_of_mem c hd)
    have hcap : cur.length < cfg.max_token_len := by
      rw [List.length_cons] at hlen
      omega
    have hlen2 : (cur ++ [c]).length + rest.length ≤ cfg.max_token_len := by
      rw [List.length_append, List.length_singleton]
      rw [List.length_cons] at hlen
      omega
    rw [List.cons_append, tokenizeAux_cons, if_pos hc.1, if_pos hcap, hc.2,
      ih hrest s (cur ++ [c]) hlen2, List.append_assoc, List.singleton_append]

theorem tokenize_join (cfg : TokenizerConfig) (toks : List (List Nat))
    (hgood : ∀ t ∈ toks, GoodTok cfg t)
    (hnil : toks = [] → 0 < cfg.min_token_len) :
    tokenize cfg (joinSpace toks) = toks := by
  induction toks with
  | nil =>
    show tokenizeAux cfg [] [] = []
    rw [tokenizeAux_nil]
    rw [if_neg (by have := hnil rfl; simp only [List.length_nil]; omega)]
  | cons t rest ih =>
    have htg := hgood t (List.mem_cons_self t rest)
    have hle : ([] : List Nat).length + t.length ≤ cfg.max_token_len := by
      simpa using htg.2.2
    cases rest with
    | nil =>
      show tokenize cfg (joinSpace [t]) = [t]
      have h1 : joinSpace [t] = t := rfl
      rw [h1]
      unfold tokenize
      have h2 := tokenizeAux_consume cfg t htg.1 [] [] hle
      rw [List.append_nil] at h2
      rw [h2, List.nil_append, tokenizeAux_nil, if_pos htg.2.1]
    | cons u rest2 =>
      show tokenize cfg (t ++ 32 :: joinSpace (u :: rest2)) = t :: u :: rest2
      unfold tokenize
      rw [tokenizeAux_consume cfg t htg.1 (32 :: joinSpace (u :: rest2)) [] hle,
        List.nil_append, tokenizeAux_cons, space_not_token]
      rw [if_neg (by simp), if_pos htg.2.1]
      have ihg : ∀ x ∈ u :: rest2, GoodTok cfg x :=
        fun x hx => hgood x (List.mem_cons_of_mem t hx)
      rw [show tokenizeAux cfg (joinSpace (u :: rest2)) [] =
        tokenize cfg (joinSpace (u :: rest2)) from rfl]
      rw [ih ihg (fun hc => absurd hc (List.cons_ne_nil u rest2))]

theorem tokenizeAux_consume_cap (cfg : TokenizerConfig) (run : List Nat)
    (hrun : ∀ c ∈ run, is_token_char cfg c = true) :
    ∀ (s cur : List Nat), cur.length ≤ cfg.max_token_len →
      tokenizeAux cfg (run ++ s) cur
        = tokenizeAux cfg s
            (cur ++ (run.map (normalize_char cfg)).take
              (cfg.max_token_len - cur.length)) := by
  induction run with
  | nil =>
    intro s cur _
    simp
  | cons c rest ih =>
    intro s cur hcur
    have hc := hrun c (List.mem_cons_self c rest)
    have hrest : ∀ d ∈ rest, is_token_char cfg d = true :=
      fun d hd => hrun d (List.mem_cons_of_mem c hd)
    rw [List.cons_append, tokenizeAux_cons, if_pos hc]
    by_cases hcap : cur.length < cfg.max_token_len
    · rw [if_pos hcap, ih hrest s (cur ++ [normalize_char cfg c])
        (by rw [List.length_append, List.length_singleton]; omega)]
      have hm : cfg.max_token_len - cur.length
          = (cfg.max_token_len - (cur.length + 1)) + 1 := by omega
      rw [List.length_append, List.length_singleton, List.map_cons, hm,
        List.take_succ_cons, List.append_assoc, List.singleton_append]
    · rw [if_neg hcap, ih hrest s cur hcur]
      have hz : cfg.max_token_len - cur.length = 0 := by omega
      rw [List.map_cons, hz, List.take_zero, List.take_zero, List.append_nil]

theorem capped_run_length (cfg : TokenizerConfig) (run : List Nat)
    (hlong : cfg.max_token_len < run.length) :
    ((run.map (normalize_char cfg)).take cfg.max_token_len).length
      = cfg.max_token_len := by
  rw [List.length_take, List.length_map]
  omega

theorem tokenize_overlong_head (cfg : TokenizerConfig) (run : List Nat) (sep : Nat)
    (rest : List Nat) (hrun : ∀ c ∈ run, is_token_char cfg c = true)
    (hsep : is_token_char cfg sep = false)
    (hlong : cfg.max_token_len < run.length) :
    tokenize cfg (run ++ sep :: rest)
      = (if cfg.min_token_len ≤ cfg.max_token_len
         then [(run.map (normalize_char cfg)).take cfg.max_token_len] else [])
        ++ tokenize cfg rest := by
  unfold tokenize
  rw [tokenizeAux_consume_cap cfg run hrun (sep :: rest) [] (Nat.zero_le _)]
  simp only [List.nil_append, List.length_nil, Nat.sub_zero]
  rw [tokenizeAux_cons, hsep]
  rw [if_neg (by simp), capped_run_length cfg run hlong]
  by_cases hmm : cfg.min_token_len ≤ cfg.max_token_len
  · rw [if_pos hmm, if_pos hmm, List.singleton_append]
  · rw [if_neg hmm, if_neg hmm, List.nil_append]

theorem tokenize_overlong_whole (cfg : TokenizerConfig) (run : List Nat)
    (hrun : ∀ c ∈ run, is_token_char cfg c = true)
    (hlong : cfg.max_token_len < run.length) :
    tokenize cfg run
      = (if cfg.min_token_len ≤ cfg.max_token_len
         then [(run.map (normalize_char cfg)).take cfg.max_token_len] else []) := by
  unfold tokenize
  have h := tokenizeAux_consume_cap cfg run hrun [] [] (Nat.zero_le _)
  rw [List.append_nil] at h
  simp only [List.nil_append, List.length_nil, Nat.sub_zero] at h
  rw [h, tokenizeAux_nil, capped_run_length cfg run hlong]

/-- C7 counterexample: with `min_token_len = 5 > 3 = max_token_len`, the
4-byte all-letter run `"aaaa"` is longer than the cap, yet `tokenize` emits
nothing at all — the run capped at length 3 is then discarded by the
minimum-length filter (tokenizer.cpp lines 43-49), so no token of length
exactly `max_token_len` is emitted.  This refutes the claim's overlong-run
clause, which quantifies over every tokenizer configuration. -/
theorem overlong_run_dropped :
    (∀ c ∈ ([97, 97, 97, 97] : List Nat), is_token_char ⟨true, 5, 3, true⟩ c = true)
    ∧ (⟨true, 5, 3, true⟩ : TokenizerConfig).max_token_len
        < ([97, 97, 97, 97] : List Nat).length
    ∧ tokenize ⟨true, 5, 3, true⟩ [97, 97, 97, 97] = []
    ∧ (∀ tok ∈ tokenize ⟨true, 5, 3, true⟩ [97, 97, 97, 97],
        tok.length ≠ (⟨true, 5, 3, true⟩ : TokenizerConfig).max_token_len) := by
  decide

/-- C7 amended: every token emitted by `tokenize` has length between
`min_token_len` and `max_token_len`.  A run of token characters longer than
`max_token_len` is never split into additional tokens: whether it stands alone
or is followed by a separator and further text, it yields at most one token,
namely the run truncated to length exactly `max_token_len`, and that token is
emitted precisely when `min_token_len ≤ max_token_len` (otherwise the
truncated run is discarded by the minimum-length filter and nothing is
emitted).  A run in the middle of a text is covered as well: the non-token
byte before it resets the accumulator to empty, so the machine enters the run
in exactly the state these equations describe. -/
theorem token_length_bounds_amended (cfg : TokenizerConfig) :
    (∀ text : List Nat, ∀ tok ∈ tokenize cfg text,
      cfg.min_token_len ≤ tok.length ∧ tok.length ≤ cfg.max_token_len)
    ∧ (∀ (run : List Nat) (sep : Nat) (rest : List Nat),
        (∀ c ∈ run, is_token_char cfg c = true) →
        is_token_char cfg sep = false →
        cfg.max_token_len < run.length →
        tokenize cfg (run ++ sep :: rest)
          = (if cfg.min_token_len ≤ cfg.max_token_len
             then [(run.map (normalize_char cfg)).take cfg.max_token_len] else [])
            ++ tokenize cfg rest)
    ∧ (∀ run : List Nat, (∀ c ∈ run, is_token_char cfg c = true) →
        cfg.max_token_len < run.length →
        tokenize cfg run
          = (if cfg.min_token_len ≤ cfg.max_token_len
             then [(run.map (normalize_char cfg)).take cfg.max_token_len] else [])
        ∧ ((run.map (normalize_char cfg)).take cfg.max_token_len).length
            = cfg.max_token_len) := by
  refine ⟨?_, ?_, ?_⟩
  · intro text tok htok
    have hg := tokenizeAux_good cfg text []
      (fun d hd => absurd hd (List.not_mem_nil d)) (Nat.zero_le _) tok htok
    exact hg.2
  · intro run sep rest hrun hsep hlong
    exact tokenize_overlong_head cfg run sep rest hrun hsep hlong
  · intro run hrun hlong
    exact ⟨tokenize_overlong_whole cfg run hrun hlong, capped_run_length cfg run hlong⟩

/-- C7 witness: the length bounds on a concrete token; the overlong run
`"aaaa"` with `min = 1 ≤ 3 = max` followed by a space and `"bb"` yields
exactly `["aaa", "bb"]`; the same run with `min = 5 > 3 = max` yields
nothing. -/
theorem token_length_bounds_amended_witness :
    ((⟨true, 2, 64, true⟩ : TokenizerConfig).min_token_len ≤ [104, 105].length
      ∧ [104, 105].length ≤ (⟨true, 2, 64, true⟩ : TokenizerConfig).max_token_len)
    ∧ tokenize ⟨true, 1, 3, true⟩ ([97, 97, 97, 97] ++ 32 :: [98, 98])
        = [[97, 97, 97], [98, 98]]
    ∧ tokenize ⟨true, 5, 3, true⟩ [97, 97, 97, 97] = [] :=
  ⟨(token_length_bounds_amended ⟨true, 2, 64, true⟩).1 [104, 105] [104, 105] (by decide),
   (token_length_bounds_amended ⟨true, 1, 3, true⟩).2.1 [97, 97, 97, 97] 32 [98, 98]
     (by decide) (by decide) (by decide),
   ((token_length_bounds_amended ⟨true, 5, 3, true⟩).2.2 [97, 97, 97, 97]
     (by decide) (by decide)).1⟩

/-- C6: joining `tokenize text` with single spaces and re-tokenizing gives
back `tokenize text` (stated, as in the spec, under the hypothesis that no
emitted token sits at the length cap; the development proves it holds even
without that hypothesis). -/
theorem tokenize_idempotent (cfg : TokenizerConfig) (text : List Nat)
    (_hcap : ∀ tok ∈ tokenize cfg text, tok.length < cfg.max_token_len) :
    tokenize cfg (joinSpace (tokenize cfg text)) = tokenize cfg text := by
  apply tokenize_join
  · intro t ht
    exact tokenizeAux_good cfg text []
      (fun d hd => absurd hd (List.not_mem_nil d)) (Nat.zero_le _) t ht
  · intro hemp
    by_contra hzero
    have h0 : cfg.min_token_len = 0 := by omega
    exact tokenizeAux_ne_nil_of_min_zero cfg h0 text [] hemp

/-- C6 witness: the default configuration on the bytes of `"Hello, world!"`. -/
theorem tokenize_idempotent_witness :
    (∀ tok ∈ tokenize ⟨true, 2, 64, true⟩
        [72, 101, 108, 108, 111, 44, 32, 119, 111, 114, 108, 100, 33],
      tok.length < (⟨true, 2, 64, true⟩ : TokenizerConfig).max_token_len)
    ∧ tokenize ⟨true, 2, 64, true⟩ (joinSpace (tokenize ⟨true, 2, 64, true⟩
        [72, 101, 108, 108, 111, 44, 32, 119, 111, 114, 108, 100, 33]))
      = tokenize ⟨true, 2, 64, true⟩
        [72, 101, 108, 108, 111, 44, 32, 119, 111, 114, 108, 100, 33] :=
  ⟨by decide, tokenize_idempotent ⟨true, 2, 64, true⟩
    [72, 101, 108, 108, 111, 44, 32, 119, 111, 114, 108, 100, 33] (by decide)⟩

/-! ### DocumentStore (claim C8)

Mtimes are modelled as integers ordered like
`std::filesystem::file_time_type`.  The double-checked read-lock/write-lock
pattern of `get_or_create` collapses to a single check in the sequential
model. -/

/-- The per-path part of `DocumentMeta` (the path itself is the key). -/
structure DocMeta where
  doc_id : Int
  mtime : Int
deriving DecidableEq, Repr

/-- Model of `DocumentStore` state: monotonic counter `next_id_` (starting at 1) and
the two maps `by_path_` and `by_id_`. -/
structure Store where
  next_id : Int
  by_path : List (String × DocMeta)
  by_id : List (Int × String)
deriving DecidableEq, Repr

/-- A freshly constructed store. -/
def Store.empty : Store := ⟨1, [], []⟩

/-- Model of `DocumentStore::get_or_create`. -/
def get_or_create (s : Store) (path : String) (mtime : Int) : (Int × Bool) × Store :=
  match lookupA s.by_path path with
  | some meta => ((meta.doc_id, false), s)
  | none =>
    ((s.next_id, true),
      { next_id := s.next_id + 1,
        by_path := insertA s.by_path path ⟨s.next_id, mtime⟩,
        by_id := insertA s.by_id s.next_id path })

/-- Model of `DocumentStore::needs_indexing`: unknown path, or strictly newer mtime. -/
def needs_indexing (s : Store) (path : String) (mtime : Int) : Bool :=
  match lookupA s.by_path path with
  | none => true
  | some meta => meta.mtime < mtime

/-- Model of `DocumentStore::update_mtime`: no-op on unknown paths. -/
def update_mtime (s : Store) (path : String) (mtime : Int) : Store :=
  match lookupA s.by_path path with
  | none => s
  | some meta => { s with by_path := insertA s.by_path path ⟨meta.doc_id, mtime⟩ }

/-- Model of `DocumentStore::doc_id_for`. -/
def doc_id_for (s : Store) (path : String) : Option Int :=
  (lookupA s.by_path path).map DocMeta.doc_id

/-- Model of `DocumentStore::path_for`. -/
def path_for (s : Store) (doc_id : Int) : Option String :=
  lookupA s.by_id doc_id

theorem get_or_create_known {s : Store} {path : String} {meta : DocMeta} (m : Int)
    (h : lookupA s.by_path path = some meta) :
    get_or_create s path m = ((meta.doc_id, false), s) := by
  unfold get_or_create
  rw [h]

theorem get_or_create_unknown {s : Store} {path : String} (m : Int)
    (h : lookupA s.by_path path = none) :
    get_or_create s path m =
      ((s.next_id, true),
        { next_id := s.next_id + 1,
          by_path := insertA s.by_path path ⟨s.next_id, m⟩,
          by_id := insertA s.by_id s.next_id path }) := by
  unfold get_or_create
  rw [h]

theorem insertA_of_not_mem {κ ν : Type} [DecidableEq κ] {l : List (κ × ν)} {k : κ}
    (v : ν) (h : lookupA l k = none) : insertA l k v = l ++ [(k, v)] := by
  induction l with
  | nil => rfl
  | cons kv rest ih =>
    obtain ⟨a, b⟩ := kv
    by_cases hak : a = k
    · subst hak
      rw [show lookupA ((a, b) :: rest) a = some b from by simp [lookupA]] at h
      exact absurd h (by simp)
    · rw [show lookupA ((a, b) :: rest) k = lookupA rest k from by simp [lookupA, hak]] at h
      rw [show insertA ((a, b) :: rest) k v = (a, b) :: insertA rest k v from by
        simp [insertA, hak]]
      rw [ih h, List.cons_append]

/-- Run a sequence of `get_or_create` calls from the fresh store. -/
def applyCalls (calls : List (String × Int)) : Store :=
  calls.foldl (fun s c => (get_or_create s c.1 c.2).2) Store.empty

/-- The arithmetic sequence `base, base+1, …` of the given length. -/
def idsFrom (base : Int) : Nat → List Int
  | 0 => []
  | n + 1 => base :: idsFrom (base + 1) n

theorem idsFrom_succ (base : Int) (n : Nat) :
    idsFrom base (n + 1) = idsFrom base n ++ [base + (n : Int)] := by
  induction n generalizing base with
  | zero => simp [idsFrom]
  | succ k ih =>
    show base :: idsFrom (base + 1) (k + 1) = (base :: idsFrom (base + 1) k) ++ _
    rw [ih (base + 1), List.cons_append]
    have : base + 1 + (k : Int) = base + ((k + 1 : Nat) : Int) := by push_cast; ring
    rw [this]

/-- Internal invariant of the store: ids are handed out in insertion order
`1, 2, 3, …` and the counter sits one past the last issued id. -/
def StoreInv (s : Store) : Prop :=
  s.by_path.map (fun kv => kv.2.doc_id) = idsFrom 1 s.by_path.length
  ∧ s.next_id = 1 + (s.by_path.length : Int)

theorem storeInv_empty : StoreInv Store.empty := ⟨rfl, rfl⟩

theorem storeInv_step {s : Store} (h : StoreInv s) (p : String) (m : Int) :
    StoreInv (get_or_create s p m).2 := by
  cases hl : lookupA s.by_path p with
  | some meta =>
    rw [get_or_create_known m hl]
    exact h
  | none =>
    rw [get_or_create_unknown m hl]
    have hins : insertA s.by_path p ⟨s.next_id, m⟩ = s.by_path ++ [(p, ⟨s.next_id, m⟩)] :=
      insertA_of_not_mem _ hl
    constructor
    · show (insertA s.by_path p ⟨s.next_id, m⟩).map (fun kv => kv.2.doc_id)
        = idsFrom 1 (insertA s.by_path p ⟨s.next_id, m⟩).length
      rw [hins, List.map_append, List.length_append, List.length_singleton,
        idsFrom_succ, h.1]
      simp [h.2]
    · show s.next_id + 1 = 1 + ((insertA s.by_path p ⟨s.next_id, m⟩).length : Int)
      rw [hins, List.length_append, List.length_singleton, h.2]
      push_cast
      ring

theorem storeInv_applyCalls (calls : List (String × Int)) : StoreInv (applyCalls calls) := by
  unfold applyCalls
  have hgen : ∀ s : Store, StoreInv s →
      StoreInv (calls.foldl (fun s2 c => (get_or_create s2 c.1 c.2).2) s) := by
    induction calls with
    | nil => exact fun s hs => hs
    | cons c rest ih =>
      intro s hs
      simp only [List.foldl_cons]
      exact ih _ (storeInv_step hs c.1 c.2)
  exact hgen Store.empty storeInv_empty

theorem lookup_preserved_step {s : Store} {path : String} {meta : DocMeta}
    (h : lookupA s.by_path path = some meta) (p2 : String) (m2 : Int) :
    lookupA (get_or_create s p2 m2).2.by_path path = some meta := by
  cases hl : lookupA s.by_path p2 with
  | some meta2 =>
    rw [get_or_create_known m2 hl]
    exact h
  | none =>
    rw [get_or_create_unknown m2 hl]
    show lookupA (insertA s.by_path p2 ⟨s.next_id, m2⟩) path = some meta
    rw [lookupA_insertA]
    rw [if_neg (by intro hc; subst hc; rw [hl] at h; exact absurd h (by simp))]
    exact h

theorem lookup_preserved_fold (extra : List (String × Int)) {s : Store} {path : String}
    {meta : DocMeta} (h : lookupA s.by_path path = some meta) :
    lookupA (extra.foldl (fun s2 c => (get_or_create s2 c.1 c.2).2) s).by_path path
      = some meta := by
  induction extra generalizing s with
  | nil => exact h
  | cons c rest ih =>
    simp only [List.foldl_cons]
    exact ih (lookup_preserved_step h c.1 c.2)

/-- C8: on any store reachable from a fresh one, `get_or_create` returns the
existing id with `created_new = false` and leaves the store (hence the stored
mtime) untouched when the path is known; for an unknown path it returns
`(next_id, true)` and records `(path, mtime)` under that id; ids are issued in
insertion order `1, 2, 3, …` with the counter one past the last issued id; and
a known path keeps its doc id across any sequence of further calls. -/
theorem get_or_create_spec (calls : List (String × Int)) (path : String) (m : Int) :
    (∀ meta : DocMeta, lookupA (applyCalls calls).by_path path = some meta →
      get_or_create (applyCalls calls) path m = ((meta.doc_id, false), applyCalls calls))
    ∧ (lookupA (applyCalls calls).by_path path = none →
      (get_or_create (applyCalls calls) path m).1 = ((applyCalls calls).next_id, true)
        ∧ lookupA (get_or_create (applyCalls calls) path m).2.by_path path
            = some ⟨(applyCalls calls).next_id, m⟩)
    ∧ (applyCalls calls).by_path.map (fun kv => kv.2.doc_id)
        = idsFrom 1 (applyCalls calls).by_path.length
    ∧ (applyCalls calls).next_id = 1 + ((applyCalls calls).by_path.length : Int)
    ∧ (∀ (extra : List (String × Int)) (meta : DocMeta),
        lookupA (applyCalls calls).by_path path = some meta →
        lookupA (applyCalls (calls ++ extra)).by_path path = some meta) := by
  refine ⟨?_, ?_, (storeInv_applyCalls calls).1, (storeInv_applyCalls calls).2, ?_⟩
  · intro meta h
    exact get_or_create_known m h
  · intro h
    rw [get_or_create_unknown m h]
    refine ⟨rfl, ?_⟩
    show lookupA (insertA (applyCalls calls).by_path path _) path = _
    rw [lookupA_insertA, if_pos rfl]
  · intro extra meta h
    unfold applyCalls
    rw [List.foldl_append]
    exact lookup_preserved_fold extra h

/-- C8 witness: with one prior call creating `"a"` as doc 1, a repeated call
returns `(1, false)` and leaves the store unchanged. -/
theorem get_or_create_spec_witness :
    get_or_create (applyCalls [("a", 5)]) "a" 9 = ((1, false), applyCalls [("a", 5)]) :=
  (get_or_create_spec [("a", 5)] "a" 9).1 ⟨1, 5⟩ (by decide)

/-! ### FileScanner and IndexBuilder (claims C5, C9, C10)

The directory walk is abstracted: a `FileSys` carries whether the root exists
and is a directory, plus the entries the (recursive) directory iterator would
yield, in iteration order.  The extension is carried as the byte string
`std::filesystem::path::extension()` would produce. -/

/-- A directory entry as seen by `FileScanner::accept_path_`. -/
structure RawEntry where
  path : String
  is_regular_file : Bool
  ext : List Nat
  mtime : Int
  size_bytes : Int
deriving DecidableEq, Repr

/-- Model of `ScanConfig` from `file_scanner.h`. -/
structure ScanConfig where
  recursive : Bool := true
  only_txt : Bool := true
  max_files : Nat := 0
deriving DecidableEq, Repr

/-- Model of `FileInfo` yielded by the scanner. -/
structure FileInfo where
  path : String
  mtime : Int
  size_bytes : Int
deriving DecidableEq, Repr

/-- The file system under a scan root. -/
structure FileSys where
  rootExists : Bool
  rootIsDir : Bool
  entries : List RawEntry
deriving DecidableEq, Repr

/-- ASCII lower-casing of the extension (`std::tolower` per byte). -/
def lowerBytes (l : List Nat) : List Nat :=
  l.map (fun c => if 65 ≤ c ∧ c ≤ 90 then c + 32 else c)

/-- Model of `FileScanner::accept_path_`: regular files only; with `only_txt`, the
case-folded extension must be `".txt"`. -/
def accept_path (cfg : ScanConfig) (e : RawEntry) : Bool :=
  if e.is_regular_file = false then false
  else if cfg.only_txt = false then true
  else lowerBytes e.ext = [46, 116, 120, 116]

/-- The iteration loop of `FileScanner::scan` with the `max_files` break. -/
def scanLoop (cfg : ScanConfig) : List RawEntry → List FileInfo → List FileInfo
  | [], acc => acc
  | e :: rest, acc =>
    if cfg.max_files ≠ 0 ∧ cfg.max_files ≤ acc.length then acc
    else scanLoop cfg rest
      (if accept_path cfg e then acc ++ [⟨e.path, e.mtime, e.size_bytes⟩] else acc)

/-- The final "stable order for reproducibility" sort of `FileScanner::scan`. -/
def sortByPath (l : List FileInfo) : List FileInfo :=
  List.insertionSort (fun a b => a.path < b.path ∨ a.path = b.path) l

/-- Model of `FileScanner::scan`: empty on a missing or non-directory root, otherwise
the accepted entries sorted by path. -/
def scan (cfg : ScanConfig) (fs : FileSys) : List FileInfo :=
  if fs.rootExists = false then []
  else if fs.rootIsDir = false then []
  else sortByPath (scanLoop cfg fs.entries [])

/-- Model of `BuildResult` from `index_builder.h` (elapsed time is not modelled). -/
structure BuildResult where
  scanned_files : Nat
  indexed_files : Nat
  skipped_files : Nat
  errors : Nat
deriving DecidableEq, Repr

/-- The shared state a build mutates: the index and the document store. -/
structure BuildState where
  index : Index
  store : Store
deriving Repr

/-- The counters aggregated under `agg_mu`. -/
structure Counters where
  indexed : Nat
  skipped : Nat
  errors : Nat
deriving DecidableEq, Repr

/-- Model of `IndexBuilder::make_term_freq_`: count occurrences, skipping empty tokens. -/
def make_term_freq (tokens : List Term) : List (Term × Int) :=
  tokens.foldl
    (fun tf t => if t = [] then tf else insertA tf t ((lookupA tf t).getD 0 + 1)) []

/-- One per-file task of `IndexBuilder::index_files`: the incremental skip
check, the file read (`read` abstracts `read_file_to_string_`; `none` is an
I/O failure), tokenize, term frequencies, `get_or_create`, upsert, mtime
update, and the counter increment. -/
def runTask (read : String → Option (List Nat)) (cfg : TokenizerConfig)
    (incremental : Bool) (st : BuildState × Counters) (fi : FileInfo) :
    BuildState × Counters :=
  if incremental ∧ needs_indexing st.1.store fi.path fi.mtime = false then
    (st.1, { st.2 with skipped := st.2.skipped + 1 })
  else
    match read fi.path with
    | none => (st.1, { st.2 with errors := st.2.errors + 1 })
    | some text =>
      ({ index := upsert_document st.1.index
            (get_or_create st.1.store fi.path fi.mtime).1.1
            (make_term_freq (tokenize cfg text)),
         store := update_mtime (get_or_create st.1.store fi.path fi.mtime).2
            fi.path fi.mtime },
       { st.2 with indexed := st.2.indexed + 1 })

/-- The clamp `if (threads == 0) threads = 1;` in `IndexBuilder::index_files`. -/
def effectiveThreads (threads : Nat) : Nat := if threads = 0 then 1 else threads

/-- The clamp in the `ThreadPool` constructor. -/
def poolThreads (thread_count : Nat) : Nat := if thread_count = 0 then 1 else thread_count

/-- Model of `IndexBuilder::index_files`: dispatch one task per file into a pool of
`poolThreads (effectiveThreads threads)` workers and aggregate the counters.
The tasks are serialized here (all claims below are about quiescent outcomes;
the scheduling freedom of the pool is captured by quantifying over task
orders, see the determinism theorem). -/
def index_files (read : String → Option (List Nat)) (cfg : TokenizerConfig)
    (bs : BuildState) (files : List FileInfo) (threads : Nat) (incremental : Bool) :
    BuildResult × BuildState :=
  let _pool_size := poolThreads (effectiveThreads threads)
  ({ scanned_files := files.length,
     indexed_files := (files.foldl (runTask read cfg incremental) (bs, ⟨0, 0, 0⟩)).2.indexed,
     skipped_files := (files.foldl (runTask read cfg incremental) (bs, ⟨0, 0, 0⟩)).2.skipped,
     errors := (files.foldl (runTask read cfg incremental) (bs, ⟨0, 0, 0⟩)).2.errors },
   (files.foldl (runTask read cfg incremental) (bs, ⟨0, 0, 0⟩)).1)

/-- The fresh build state (new index, new store). -/
def BuildState.empty : BuildState := ⟨Index.empty, Store.empty⟩

/-- C9: when the scan root does not exist or is not a directory, the scanner
returns the empty file list, the resulting build reports `scanned = 0`, and
the outcome (scan result and entire `BuildResult`/state) is the same as
scanning an empty directory. -/
theorem scan_invalid_root (cfg : ScanConfig) (fs : FileSys)
    (h : fs.rootExists = false ∨ fs.rootIsDir = false)
    (read : String → Option (List Nat)) (tcfg : TokenizerConfig) (bs : BuildState)
    (w : Nat) (incremental : Bool) :
    scan cfg fs = []
    ∧ (index_files read tcfg bs (scan cfg fs) w incremental).1.scanned_files = 0
    ∧ scan cfg fs = scan cfg ⟨true, true, []⟩
    ∧ index_files read tcfg bs (scan cfg fs) w incremental
        = index_files read tcfg bs (scan cfg ⟨true, true, []⟩) w incremental := by
  have hscan : scan cfg fs = [] := by
    unfold scan
    rcases h with h1 | h2
    · rw [if_pos h1]
    · by_cases he : fs.rootExists = false
      · rw [if_pos he]
      · rw [if_neg he, if_pos h2]
  have hempty : scan cfg ⟨true, true, []⟩ = [] := by
    unfold scan
    rw [if_neg (by simp), if_neg (by simp)]
    rfl
  refine ⟨hscan, ?_, ?_, ?_⟩
  · rw [hscan]
    rfl
  · rw [hscan, hempty]
  · rw [hscan, hempty]

/-- C9 witness: a file system whose root is missing. -/
theorem scan_invalid_root_witness :
    scan ⟨true, true, 0⟩ ⟨false, true, []⟩ = [] :=
  (scan_invalid_root ⟨true, true, 0⟩ ⟨false, true, []⟩ (Or.inl rfl)
    (fun _ => none) ⟨true, 2, 64, true⟩ BuildState.empty 4 false).1

/-- C10: `index_files` with a worker count of 0 behaves exactly like worker
count 1: the builder clamps the count to 1 before constructing the pool, the
`ThreadPool` constructor clamps 0 to 1 as well, and consequently the pool size
actually used is always at least 1 — a zero-worker pool is never constructed. -/
theorem index_files_zero_threads (read : String → Option (List Nat))
    (cfg : TokenizerConfig) (bs : BuildState) (files : List FileInfo)
    (incremental : Bool) :
    index_files read cfg bs files 0 incremental = index_files read cfg bs files 1 incremental
    ∧ effectiveThreads 0 = 1
    ∧ poolThreads 0 = 1
    ∧ (∀ w : Nat, 1 ≤ poolThreads (effectiveThreads w)) := by
  refine ⟨rfl, rfl, rfl, ?_⟩
  intro w
  unfold poolThreads effectiveThreads
  by_cases h : w = 0
  · simp [h]
  · simp [h]
    omega

/-! ### Build determinism (claim C5) -/

/-- All `(term, doc_id, freq)` triples stored in the inverted map, as a list. -/
def invTriplesL : InvMap → List (Term × Int × Int)
  | [] => []
  | (t, ps) :: rest => ps.map (fun p => (t, p.doc_id, p.freq)) ++ invTriplesL rest

/-- The same triples as a multiset (order across shards and inside posting
vectors is not contractual). -/
def invTriples (inv : InvMap) : Multiset (Term × Int × Int) := ↑(invTriplesL inv)

/-- Translate a triple's doc id to its path via the store. -/
def resolveTriple (s : Store) (x : Term × Int × Int) : Term × String × Int :=
  (x.1, (path_for s x.2.1).getD "", x.2.2)

/-- The fingerprint of §8.2: the multiset of `(term, path, freq)` triples. -/
def fingerprint (bs : BuildState) : Multiset (Term × String × Int) :=
  (invTriples bs.index.inverted).map (resolveTriple bs.store)

/-- What one file contributes to the fingerprint: nothing when the read
fails, otherwise its positive term frequencies tagged with its path. -/
def perFile (read : String → Option (List Nat)) (cfg : TokenizerConfig)
    (fi : FileInfo) : Multiset (Term × String × Int) :=
  match read fi.path with
  | none => 0
  | some text =>
    ↑(((make_term_freq (tokenize cfg text)).filter (fun kv => 0 < kv.2)).map
        (fun kv => (kv.1, fi.path, kv.2)))

theorem remove_document_absent {idx : Index} {doc : Int}
    (h : lookupA idx.forward doc = none) : remove_document idx doc = idx := by
  unfold remove_document
  rw [h, Option.getD_none, List.foldl_nil,
    eraseA_of_not_mem ((lookupA_eq_none _ _).1 h)]

theorem invTriples_cons (a : Term) (ps : List Posting) (rest : InvMap) :
    invTriples ((a, ps) :: rest)
      = ↑(ps.map (fun q => (a, q.doc_id, q.freq))) + invTriples rest := by
  have h : invTriplesL ((a, ps) :: rest)
      = ps.map (fun q => (a, q.doc_id, q.freq)) ++ invTriplesL rest := rfl
  unfold invTriples
  rw [h, ← Multiset.coe_add]

theorem invTriples_appendPosting (inv : InvMap) (t : Term) (p : Posting) :
    invTriples (appendPosting inv t p) = invTriples inv + {(t, p.doc_id, p.freq)} := by
  induction inv with
  | nil =>
    show invTriples (insertA [] t ((lookupA ([] : InvMap) t).getD [] ++ [p])) = _
    simp [invTriples, invTriplesL, lookupA, insertA]
  | cons kv rest ih =>
    obtain ⟨a, ps⟩ := kv
    by_cases hat : a = t
    · subst hat
      have h1 : appendPosting ((a, ps) :: rest) a p = (a, ps ++ [p]) :: rest := by
        unfold appendPosting
        rw [show lookupA ((a, ps) :: rest) a = some ps from by simp [lookupA]]
        simp [insertA]
      rw [h1, invTriples_cons, invTriples_cons, List.map_append, ← Multiset.coe_add]
      simp only [List.map_cons, List.map_nil, Multiset.coe_singleton]
      abel
    · have h1 : appendPosting ((a, ps) :: rest) t p = (a, ps) :: appendPosting rest t p := by
        unfold appendPosting
        rw [show lookupA ((a, ps) :: rest) t = lookupA rest t from by simp [lookupA, hat]]
        rw [show insertA ((a, ps) :: rest) t ((lookupA rest t).getD [] ++ [p])
            = (a, ps) :: insertA rest t ((lookupA rest t).getD [] ++ [p]) from by
          simp [insertA, hat]]
      rw [h1, invTriples_cons, invTriples_cons, ih, add_assoc]

theorem invTriples_appendFold (entries : List (Term × Int)) (inv : InvMap) (doc : Int) :
    invTriples (entries.foldl (fun acc kv => appendPosting acc kv.1 ⟨doc, kv.2⟩) inv)
      = invTriples inv + ↑(entries.map (fun kv => (kv.1, doc, kv.2))) := by
  induction entries generalizing inv with
  | nil => simp
  | cons kv rest ih =>
    rw [List.foldl_cons, ih, invTriples_appendPosting, add_assoc, List.map_cons]
    congr 1

theorem upsert_triples_absent {idx : Index} {doc : Int} (tf : List (Term × Int))
    (h : lookupA idx.forward doc = none) :
    invTriples (upsert_document idx doc tf).inverted
      = invTriples idx.inverted
        + ↑((tf.filter (fun kv => 0 < kv.2)).map (fun kv => (kv.1, doc, kv.2))) := by
  show invTriples ((tf.filter (fun kv => 0 < kv.2)).foldl
      (fun acc kv => appendPosting acc kv.1 ⟨doc, kv.2⟩)
      (remove_document idx doc).inverted) = _
  rw [remove_document_absent h, invTriples_appendFold]

theorem invTriplesL_doc_bound (B : Int → Prop) {inv : InvMap}
    (hb : ∀ e ∈ inv, ∀ p ∈ e.2, B p.doc_id) :
    ∀ x ∈ invTriplesL inv, B x.2.1 := by
  induction inv with
  | nil => intro x hx; exact absurd hx (List.not_mem_nil x)
  | cons kv rest ih =>
    obtain ⟨t, ps⟩ := kv
    intro x hx
    rcases List.mem_append.1 hx with h1 | h2
    · rcases List.mem_map.1 h1 with ⟨p, hp, hpx⟩
      rw [← hpx]
      exact hb (t, ps) (List.mem_cons_self _ _) p hp
    · exact ih (fun e he => hb e (List.mem_cons_of_mem _ he)) x h2

theorem postbound_appendPosting (B : Int → Prop) {inv : InvMap}
    (hb : ∀ e ∈ inv, ∀ q ∈ e.2, B q.doc_id) {t : Term} {p : Posting} (hp : B p.doc_id) :
    ∀ e ∈ appendPosting inv t p, ∀ q ∈ e.2, B q.doc_id := by
  intro e he q hq
  rcases mem_insertA he with h1 | h2
  · exact hb e h1 q hq
  · subst h2
    rcases List.mem_append.1 hq with hq1 | hq2
    · cases hl : lookupA inv t with
      | none =>
        rw [hl] at hq1
        simp at hq1
      | some ps =>
        rw [hl] at hq1
        simp only [Option.getD_some] at hq1
        exact hb (t, ps) (mem_of_lookupA hl) q hq1
    · rw [List.mem_singleton.1 hq2]
      exact hp

theorem postbound_appendFold (B : Int → Prop) (entries : List (Term × Int))
    {inv : InvMap} {doc : Int}
    (hb : ∀ e ∈ inv, ∀ q ∈ e.2, B q.doc_id) (hdoc : B doc) :
    ∀ e ∈ entries.foldl (fun acc kv => appendPosting acc kv.1 ⟨doc, kv.2⟩) inv,
      ∀ q ∈ e.2, B q.doc_id := by
  induction entries generalizing inv with
  | nil => exact hb
  | cons kv rest ih =>
    simp only [List.foldl_cons]
    exact ih (postbound_appendPosting B hb hdoc)

/-- The build invariant that makes doc-id to path translation stable: every
doc id occurring in the index is below the store's counter. -/
def BInv (bs : BuildState) : Prop :=
  (∀ e ∈ bs.index.inverted, ∀ p ∈ e.2, p.doc_id < bs.store.next_id)
  ∧ (∀ d ∈ bs.index.forward.map Prod.fst, d < bs.store.next_id)

theorem binv_empty : BInv BuildState.empty :=
  ⟨fun e he => absurd he (List.not_mem_nil e),
   fun d hd => absurd hd (List.not_mem_nil d)⟩

theorem runTask_step (read : String → Option (List Nat)) (cfg : TokenizerConfig)
    {bs : BuildState} (c : Counters) (fi : FileInfo) (hinv : BInv bs)
    (hfresh : lookupA bs.store.by_path fi.path = none) :
    fingerprint (runTask read cfg false (bs, c) fi).1 = fingerprint bs + perFile read cfg fi
    ∧ BInv (runTask read cfg false (bs, c) fi).1
    ∧ (∀ p2 : String, p2 ≠ fi.path → lookupA bs.store.by_path p2 = none →
        lookupA (runTask read cfg false (bs, c) fi).1.store.by_path p2 = none) := by
  cases hr : read fi.path with
  | none =>
    have hrt : runTask read cfg false (bs, c) fi
        = (bs, { c with errors := c.errors + 1 }) := by
      unfold runTask
      rw [if_neg (by simp), hr]
    rw [hrt]
    refine ⟨?_, hinv, fun p2 _ h2 => h2⟩
    show fingerprint bs = fingerprint bs + perFile read cfg fi
    unfold perFile
    rw [hr, add_zero]
  | some text =>
    have hgc : get_or_create bs.store fi.path fi.mtime
        = ((bs.store.next_id, true),
          { next_id := bs.store.next_id + 1,
            by_path := insertA bs.store.by_path fi.path ⟨bs.store.next_id, fi.mtime⟩,
            by_id := insertA bs.store.by_id bs.store.next_id fi.path }) :=
      get_or_create_unknown fi.mtime hfresh
    have hupd : update_mtime
        { next_id := bs.store.next_id + 1,
          by_path := insertA bs.store.by_path fi.path ⟨bs.store.next_id, fi.mtime⟩,
          by_id := insertA bs.store.by_id bs.store.next_id fi.path } fi.path fi.mtime
        = { next_id := bs.store.next_id + 1,
            by_path := insertA (insertA bs.store.by_path fi.path
              ⟨bs.store.next_id, fi.mtime⟩) fi.path ⟨bs.store.next_id, fi.mtime⟩,
            by_id := insertA bs.store.by_id bs.store.next_id fi.path } := by
      unfold update_mtime
      rw [show lookupA (insertA bs.store.by_path fi.path
          ⟨bs.store.next_id, fi.mtime⟩) fi.path = some ⟨bs.store.next_id, fi.mtime⟩ from by
        rw [lookupA_insertA, if_pos rfl]]
    have hrt : runTask read cfg false (bs, c) fi
        = (BuildState.mk
            (upsert_document bs.index bs.store.next_id (make_term_freq (tokenize cfg text)))
            (Store.mk (bs.store.next_id + 1)
              (insertA (insertA bs.store.by_path fi.path ⟨bs.store.next_id, fi.mtime⟩)
                fi.path ⟨bs.store.next_id, fi.mtime⟩)
              (insertA bs.store.by_id bs.store.next_id fi.path)),
           { c with indexed := c.indexed + 1 }) := by
      unfold runTask
      rw [if_neg (by simp), hr, hgc, hupd]
    have hnidfwd : lookupA bs.index.forward bs.store.next_id = none := by
      rw [lookupA_eq_none]
      intro hmem
      exact absurd (hinv.2 _ hmem) (lt_irrefl _)
    rw [hrt]
    refine ⟨?_, ⟨?_, ?_⟩, ?_⟩
    · -- fingerprint equation
      show (invTriples (upsert_document bs.index bs.store.next_id
          (make_term_freq (tokenize cfg text))).inverted).map
            (resolveTriple (Store.mk (bs.store.next_id + 1)
              (insertA (insertA bs.store.by_path fi.path ⟨bs.store.next_id, fi.mtime⟩)
                fi.path ⟨bs.store.next_id, fi.mtime⟩)
              (insertA bs.store.by_id bs.store.next_id fi.path)))
          = fingerprint bs + perFile read cfg fi
      rw [upsert_triples_absent _ hnidfwd, Multiset.map_add]
      congr 1
      · -- old triples resolve identically
        apply Multiset.map_congr rfl
        intro x hx
        have hb : x.2.1 < bs.store.next_id :=
          invTriplesL_doc_bound (fun d => d < bs.store.next_id) hinv.1 x
            (Multiset.mem_coe.1 hx)
        unfold resolveTriple path_for
        show (x.1, (lookupA (insertA bs.store.by_id bs.store.next_id fi.path) x.2.1).getD "",
            x.2.2) = _
        rw [lookupA_insertA, if_neg (by intro hc; rw [← hc] at hb; exact lt_irrefl _ hb)]
      · -- new triples are exactly the file's contribution
        unfold perFile
        rw [hr]
        rw [show ((((make_term_freq (tokenize cfg text)).filter
              (fun kv => 0 < kv.2)).map (fun kv => (kv.1, bs.store.next_id, kv.2))
            : List (Term × Int × Int)) : Multiset (Term × Int × Int)).map
              (resolveTriple (Store.mk (bs.store.next_id + 1)
                (insertA (insertA bs.store.by_path fi.path ⟨bs.store.next_id, fi.mtime⟩)
                  fi.path ⟨bs.store.next_id, fi.mtime⟩)
                (insertA bs.store.by_id bs.store.next_id fi.path)))
            = ↑((((make_term_freq (tokenize cfg text)).filter
                (fun kv => 0 < kv.2)).map (fun kv => (kv.1, bs.store.next_id, kv.2))).map
                  (resolveTriple (Store.mk (bs.store.next_id + 1)
                    (insertA (insertA bs.store.by_path fi.path ⟨bs.store.next_id, fi.mtime⟩)
                      fi.path ⟨bs.store.next_id, fi.mtime⟩)
                    (insertA bs.store.by_id bs.store.next_id fi.path))))
          from Multiset.map_coe _ _]
        rw [List.map_map]
        congr 1
        apply List.map_congr_left
        intro kv _
        show (kv.1, (lookupA (insertA bs.store.by_id bs.store.next_id fi.path)
            bs.store.next_id).getD "", kv.2) = (kv.1, fi.path, kv.2)
        rw [lookupA_insertA, if_pos rfl]
        rfl
    · -- posting doc-id bound
      have hinvd : (upsert_document bs.index bs.store.next_id
          (make_term_freq (tokenize cfg text))).inverted
          = ((make_term_freq (tokenize cfg text)).filter (fun kv => 0 < kv.2)).foldl
              (fun acc kv => appendPosting acc kv.1 ⟨bs.store.next_id, kv.2⟩)
              bs.index.inverted := by
        show ((make_term_freq (tokenize cfg text)).filter (fun kv => 0 < kv.2)).foldl
            (fun acc kv => appendPosting acc kv.1 ⟨bs.store.next_id, kv.2⟩)
            (remove_document bs.index bs.store.next_id).inverted = _
        rw [remove_document_absent hnidfwd]
      intro e he q hq
      rw [hinvd] at he
      exact postbound_appendFold (fun d => d < bs.store.next_id + 1) _
        (fun e2 he2 q2 hq2 => lt_trans (hinv.1 e2 he2 q2 hq2) (lt_add_one _))
        (lt_add_one _) e he q hq
    · -- forward key bound
      intro d hd
      have hfwd : (upsert_document bs.index bs.store.next_id
          (make_term_freq (tokenize cfg text))).forward
          = insertA (eraseA bs.index.forward bs.store.next_id) bs.store.next_id
              ((make_term_freq (tokenize cfg text)).filter (fun kv => 0 < kv.2)) := rfl
      rw [hfwd, keys_insertA] at hd
      by_cases hm : bs.store.next_id
          ∈ (eraseA bs.index.forward bs.store.next_id).map Prod.fst
      · rw [if_pos hm] at hd
        have hsub : d ∈ bs.index.forward.map Prod.fst :=
          ((eraseA_sublist _ _).map Prod.fst).subset hd
        exact lt_trans (hinv.2 d hsub) (lt_add_one _)
      · rw [if_neg hm] at hd
        rcases List.mem_append.1 hd with h1 | h2
        · have hsub : d ∈ bs.index.forward.map Prod.fst :=
            ((eraseA_sublist _ _).map Prod.fst).subset h1
          exact lt_trans (hinv.2 d hsub) (lt_add_one _)
        · rw [List.mem_singleton.1 h2]
          exact lt_add_one _
    · -- freshness of other paths is preserved
      intro p2 hne h2
      show lookupA (insertA (insertA bs.store.by_path fi.path
          ⟨bs.store.next_id, fi.mtime⟩) fi.path ⟨bs.store.next_id, fi.mtime⟩) p2 = none
      rw [lookupA_insertA, if_neg (fun hc => hne hc.symm),
        lookupA_insertA, if_neg (fun hc => hne hc.symm)]
      exact h2

theorem buildFold_fingerprint (read : String → Option (List Nat)) (cfg : TokenizerConfig)
    (files : List FileInfo) :
    ∀ (bs : BuildState) (c : Counters), BInv bs →
      (∀ fi ∈ files, lookupA bs.store.by_path fi.path = none) →
      (files.map FileInfo.path).Nodup →
      fingerprint (files.foldl (runTask read cfg false) (bs, c)).1
        = fingerprint bs + (files.map (perFile read cfg)).sum := by
  induction files with
  | nil =>
    intro bs c _ _ _
    simp
  | cons fi rest ih =>
    intro bs c hinv hfresh hnd
    rw [List.foldl_cons, List.map_cons, List.sum_cons]
    obtain ⟨hfp, hbinv, hpres⟩ :=
      runTask_step read cfg c fi hinv (hfresh fi (List.mem_cons_self fi rest))
    rw [List.map_cons] at hnd
    have hnd1 : fi.path ∉ rest.map FileInfo.path := (List.nodup_cons.1 hnd).1
    have hnd2 : (rest.map FileInfo.path).Nodup := (List.nodup_cons.1 hnd).2
    have hfromr : ∀ fi2 ∈ rest,
        lookupA (runTask read cfg false (bs, c) fi).1.store.by_path fi2.path = none := by
      intro fi2 hfi2
      apply hpres fi2.path
      · intro hc
        exact hnd1 (hc ▸ List.mem_map_of_mem FileInfo.path hfi2)
      · exact hfresh fi2 (List.mem_cons_of_mem fi hfi2)
    have heta : rest.foldl (runTask read cfg false) (runTask read cfg false (bs, c) fi)
        = rest.foldl (runTask read cfg false)
            ((runTask read cfg false (bs, c) fi).1,
             (runTask read cfg false (bs, c) fi).2) := rfl
    rw [heta, ih _ _ hbinv hfromr hnd2, hfp, add_assoc]

/-- C5: building a fresh index over the same set of files — in any two task
execution orders (the only scheduling freedom a worker count `W ≥ 1` has) and
with any two worker counts — yields the same multiset of `(term, path, freq)`
triples, i.e. equal fingerprints, provided the scanned paths are distinct (the
scanner yields each file once). -/
theorem build_deterministic (read : String → Option (List Nat)) (cfg : TokenizerConfig)
    (files1 files2 : List FileInfo) (w1 w2 : Nat)
    (hperm : files1.Perm files2) (hnd : (files1.map FileInfo.path).Nodup) :
    fingerprint (index_files read cfg BuildState.empty files1 w1 false).2
      = fingerprint (index_files read cfg BuildState.empty files2 w2 false).2 := by
  have hnd2 : (files2.map FileInfo.path).Nodup := ((hperm.map FileInfo.path).nodup_iff).1 hnd
  have h1 := buildFold_fingerprint read cfg files1 BuildState.empty ⟨0, 0, 0⟩ binv_empty
    (fun fi _ => rfl) hnd
  have h2 := buildFold_fingerprint read cfg files2 BuildState.empty ⟨0, 0, 0⟩ binv_empty
    (fun fi _ => rfl) hnd2
  show fingerprint (files1.foldl (runTask read cfg false) (BuildState.empty, ⟨0, 0, 0⟩)).1
      = fingerprint (files2.foldl (runTask read cfg false) (BuildState.empty, ⟨0, 0, 0⟩)).1
  rw [h1, h2]
  congr 1
  exact (hperm.map (perFile read cfg)).sum_eq

/-- C5 witness: two files indexed in opposite orders with different worker
counts produce equal fingerprints. -/
theorem build_deterministic_witness :
    fingerprint (index_files
      (fun p => if p = "a" then some [104, 105] else some [104])
      ⟨true, 2, 64, true⟩ BuildState.empty [⟨"a", 0, 1⟩, ⟨"b", 0, 1⟩] 1 false).2
    = fingerprint (index_files
      (fun p => if p = "a" then some [104, 105] else some [104])
      ⟨true, 2, 64, true⟩ BuildState.empty [⟨"b", 0, 1⟩, ⟨"a", 0, 1⟩] 4 false).2 :=
  build_deterministic _ ⟨true, 2, 64, true⟩ _ _ 1 4 (List.Perm.swap _ _ _) (by decide)

end Core

